import Mathlib

/-!
Verification of the multi-head attention module of metaseq
(`src/metaseq/modules/multihead_attention.py`).

Modelling conventions, used throughout this file:

* Float tensors are modelled over the exact rationals `ℚ`; a rank-`n`
  tensor is an `n`-fold nested list (`T1` … `T4` below).  Dtype casts such
  as `.float()` or `.type_as(...)` change floating precision only and are
  the identity on the modelled values.
* Boolean / byte tensors (key-padding masks) are modelled as 0/1-valued
  rational tensors, matching the code which freely mixes byte and float
  masks; `True` is 1, `False` is 0.
* Additive attention-mask entries may be `-inf`; scores after additive
  masking are modelled by `SVal` (`-inf` or a finite rational).  The
  float-level non-finite algebra (NaN, `+inf`) needed for the
  `torch.nan_to_num` sanitization step is modelled separately by `EFloat`.
* `torch.cat(…, dim=0)` is list append, `torch.cat(…, dim=1)` is row-wise
  append (`catDim1`), `.view` between `(B*H, L, D)` and `(B, H, L, D)` is
  `List.flatten` / `chunkN`, and `.transpose` of a rectangular tensor is
  the index transposition `transpose2`.
* The module is modelled as constructed with `add_bias_kv`/`add_zero_attn`
  configurable, with non-sharded projection weights (`ShardedTensor`
  branches are dead in that case), `onnx_trace = False` and outside of
  TorchScript tracing.  Python `assert` failures are modelled by `none`:
  fallible operations return `Option`.
-/

namespace MetaseqMHA

/-- Rank-1 float tensor (a vector of exact rationals). -/
abbrev T1 : Type := List ℚ

/-- Rank-2 float tensor (a list of rows). -/
abbrev T2 : Type := List T1

/-- Rank-3 float tensor. -/
abbrev T3 : Type := List T2

/-- Rank-4 float tensor. -/
abbrev T4 : Type := List T3

/-- Dot product of two vectors (used to express matrix products). -/
def dotQ (a b : T1) : ℚ := (List.zipWith (· * ·) a b).sum

/-- Split a list into `k` consecutive chunks of `n` elements each; models a
`.view` that refines one axis of length `k*n` into two axes `(k, n)`. -/
def chunkN : ℕ → ℕ → List α → List (List α)
  | 0, _, _ => []
  | k + 1, n, l => l.take n :: chunkN k n (l.drop n)

/-- Transposition of the two outer axes of a rectangular nested list;
models `torch.Tensor.transpose` on two adjacent axes.  The default `d` is
only read on ragged input, which no reachable tensor is. -/
def transpose2 (m : List (List α)) (d : α) : List (List α) :=
  (List.range (m.headD []).length).map fun j => m.map fun r => r.getD j d

/-- Matrix product `A * B` for `A : (T, D)` and `B : (D, S)`. -/
def matMul (A B : T2) : T2 :=
  A.map fun r => (transpose2 B 0).map fun c => dotQ r c

/-- Batched matrix multiply `torch.bmm` over the leading axis. -/
def bmm3 (a b : T3) : T3 := List.zipWith matMul a b

/-- `torch.Tensor.transpose(1, 2)` on a rank-3 tensor. -/
def transpose12 (x : T3) : T3 := x.map (fun A => transpose2 A 0)

/-- Size of axis 1 of a (rectangular) rank-≥2 tensor, `t.size(1)`. -/
def size1 (m : List (List α)) : ℕ := (m.headD []).length

/-- Concatenation along axis 1, `torch.cat([a, b], dim=1)`; defined (as in
torch) for tensors agreeing on axis 0. -/
def catDim1 (a b : List (List α)) : List (List α) := List.zipWith (· ++ ·) a b

/-- An all-zero `(bsz, n)` tensor, `torch.zeros((bsz, n))`. -/
def zerosMask (bsz n : ℕ) : T2 := List.replicate bsz (List.replicate n (0 : ℚ))

/-- Key-padding mask of shape `(bsz, src_len)`: 1 marks a padding position.
The code mixes byte and float masks; both are 0/1-valued here and the
`.float()` casts in `_append_prev_key_padding_mask` are the identity. -/
abbrev KPMask : Type := T2

/-- The static method `MultiheadAttention._append_prev_key_padding_mask`
(multihead_attention.py lines 487–529): combines the key-padding mask of
the current call with the cached one.  The five branches of the Python
`if`/`elif` chain appear in source order. -/
def appendPrevKeyPaddingMask (key_padding_mask prev_key_padding_mask : Option KPMask)
    (batch_size src_len : ℕ) (static_kv : Bool) : Option KPMask :=
  match prev_key_padding_mask, key_padding_mask, static_kv with
  | some prev, _, true => some prev
  | some prev, some cur, false => some (catDim1 prev cur)
  | some prev, none, false =>
      if size1 prev < src_len then
        some (catDim1 prev (zerosMask batch_size (src_len - size1 prev)))
      else some prev
  | none, some cur, _ =>
      if size1 cur < src_len then
        some (catDim1 (zerosMask batch_size (src_len - size1 cur)) cur)
      else some cur
  | none, none, _ => none

lemma length_mem_catDim1 {a b : List (List α)} {la lb : ℕ}
    (ha : ∀ r ∈ a, r.length = la) (hb : ∀ r ∈ b, r.length = lb) :
    ∀ r ∈ catDim1 a b, r.length = la + lb := by
  intro r hr
  unfold catDim1 at hr
  induction a generalizing b with
  | nil => simp at hr
  | cons x xs ih =>
    cases b with
    | nil => simp at hr
    | cons y ys =>
      simp only [List.zipWith_cons_cons, List.mem_cons] at hr
      rcases hr with h | h
      · subst h
        rw [List.length_append, ha x (by simp), hb y (by simp)]
      · exact ih (fun r hr => ha r (by simp [hr])) (fun r hr => hb r (by simp [hr])) h

lemma length_mem_zerosMask (bsz n : ℕ) : ∀ r ∈ zerosMask bsz n, r.length = n := by
  intro r hr
  unfold zerosMask at hr
  rw [List.eq_of_mem_replicate hr, List.length_replicate]

/-- C2: the five-branch combination policy of
`_append_prev_key_padding_mask`, branch by branch: (1) a cached mask wins
outright under `static_kv`; (2) otherwise two masks are concatenated with
the cached one first; (3) a lone cached mask shorter than `src_len` is
right-padded with zero (non-masked) filler; (4) a lone new mask shorter
than `src_len` is left-padded with zero filler; (5) no masks give `none`. -/
theorem append_mask_five_branch_policy
    (kpm pkpm : Option KPMask) (bsz srcLen : ℕ) (skv : Bool) :
    (∀ prev, pkpm = some prev → skv = true →
        appendPrevKeyPaddingMask kpm pkpm bsz srcLen skv = some prev)
  ∧ (∀ prev cur, pkpm = some prev → kpm = some cur → skv = false →
        appendPrevKeyPaddingMask kpm pkpm bsz srcLen skv = some (catDim1 prev cur))
  ∧ (∀ prev, pkpm = some prev → kpm = none → skv = false → size1 prev < srcLen →
        appendPrevKeyPaddingMask kpm pkpm bsz srcLen skv =
          some (catDim1 prev (zerosMask bsz (srcLen - size1 prev))))
  ∧ (∀ cur, pkpm = none → kpm = some cur → size1 cur < srcLen →
        appendPrevKeyPaddingMask kpm pkpm bsz srcLen skv =
          some (catDim1 (zerosMask bsz (srcLen - size1 cur)) cur))
  ∧ (pkpm = none → kpm = none →
        appendPrevKeyPaddingMask kpm pkpm bsz srcLen skv = none) := by
  refine ⟨?_, ?_, ?_, ?_, ?_⟩
  · rintro prev rfl rfl
    cases kpm <;> rfl
  · rintro prev cur rfl rfl rfl
    rfl
  · rintro prev rfl rfl rfl h
    simp [appendPrevKeyPaddingMask, h]
  · rintro cur rfl rfl h
    cases skv <;> simp [appendPrevKeyPaddingMask, h]
  · rintro rfl rfl
    cases skv <;> rfl

/-- Witness for C2, at the representative input of the spec:
`previous = [T,T,F]`, `new = [F,F]`, `static_kv = False` combine to
`[T,T,F,F,F]` (branch 2, cached mask first). -/
theorem append_mask_five_branch_policy_witness :
    appendPrevKeyPaddingMask (some [[0, 0]]) (some [[1, 1, 0]]) 1 5 false =
      some [[1, 1, 0, 0, 0]] := by
  have h := (append_mask_five_branch_policy (some [[0, 0]]) (some [[1, 1, 0]])
    1 5 false).2.1 [[1, 1, 0]] [[0, 0]] rfl rfl rfl
  rw [h]
  rfl

/-- Counterexample to C4 as stated: with only a cached mask of length 2,
`static_kv = True` and `src_len = 5`, the combination returns the cached
mask unchanged, whose final-axis length is 2, not the supplied 5. -/
theorem append_mask_length_counterexample :
    appendPrevKeyPaddingMask none (some [[0, 0]]) 1 5 true = some [[0, 0]] ∧
      size1 [[(0 : ℚ), 0]] ≠ 5 := by
  exact ⟨rfl, by decide⟩

/-- C4 (amended): whenever `_append_prev_key_padding_mask` returns a
non-none mask its final-axis length equals `src_len`, provided the input
masks are rectangular with `bsz` rows and their lengths are compatible
with `src_len` in the branch taken: a cached mask reused under
`static_kv` already has length `src_len`; when both masks are present
their lengths sum to `src_len`; a lone mask is at most `src_len` long.
(These are exactly the conditions `forward` establishes at the call
site, where `src_len` is the length of the concatenated key tensor.) -/
theorem append_mask_length_srcLen
    (kpm pkpm : Option KPMask) (bsz srcLen : ℕ) (skv : Bool)
    (hp : ∀ p, pkpm = some p → ∀ r ∈ p, r.length = size1 p)
    (hc : ∀ c, kpm = some c → ∀ r ∈ c, r.length = size1 c)
    (h1 : ∀ p, pkpm = some p → skv = true → size1 p = srcLen)
    (h2 : ∀ p c, pkpm = some p → kpm = some c → skv = false →
        size1 p + size1 c = srcLen)
    (h3 : ∀ p, pkpm = some p → kpm = none → skv = false → size1 p ≤ srcLen)
    (h4 : ∀ c, pkpm = none → kpm = some c → size1 c ≤ srcLen) :
    ∀ m, appendPrevKeyPaddingMask kpm pkpm bsz srcLen skv = some m →
      ∀ r ∈ m, r.length = srcLen := by
  intro m hm r hr
  rcases pkpm with _ | p <;> rcases kpm with _ | c <;> cases skv <;>
    simp only [appendPrevKeyPaddingMask] at hm
  · exact absurd hm (by simp)
  · exact absurd hm (by simp)
  · rcases lt_or_ge (size1 c) srcLen with h | h
    · rw [if_pos h] at hm
      injection hm with hm
      subst hm
      have := length_mem_catDim1 (length_mem_zerosMask bsz (srcLen - size1 c))
        (hc c rfl) r hr
      omega
    · rw [if_neg (not_lt.mpr h)] at hm
      injection hm with hm
      subst hm
      have hle := h4 c rfl rfl
      have := hc c rfl r hr
      omega
  · rcases lt_or_ge (size1 c) srcLen with h | h
    · rw [if_pos h] at hm
      injection hm with hm
      subst hm
      have := length_mem_catDim1 (length_mem_zerosMask bsz (srcLen - size1 c))
        (hc c rfl) r hr
      omega
    · rw [if_neg (not_lt.mpr h)] at hm
      injection hm with hm
      subst hm
      have hle := h4 c rfl rfl
      have := hc c rfl r hr
      omega
  · rcases lt_or_ge (size1 p) srcLen with h | h
    · rw [if_pos h] at hm
      injection hm with hm
      subst hm
      have := length_mem_catDim1 (hp p rfl)
        (length_mem_zerosMask bsz (srcLen - size1 p)) r hr
      omega
    · rw [if_neg (not_lt.mpr h)] at hm
      injection hm with hm
      subst hm
      have hle := h3 p rfl rfl rfl
      have := hp p rfl r hr
      omega
  · injection hm with hm
    subst hm
    rw [hp p rfl r hr]
    exact h1 p rfl rfl
  · injection hm with hm
    subst hm
    have := length_mem_catDim1 (hp p rfl) (hc c rfl) r hr
    rw [this]
    exact h2 p c rfl rfl rfl
  · injection hm with hm
    subst hm
    rw [hp p rfl r hr]
    exact h1 p rfl rfl

/-- Witness for C4 (amended): the branch-2 example input satisfies every
hypothesis and the resulting mask rows all have length `src_len = 5`. -/
theorem append_mask_length_srcLen_witness :
    appendPrevKeyPaddingMask (some [[0, 0]]) (some [[1, 1, 0]]) 1 5 false
        = some [[1, 1, 0, 0, 0]] ∧ List.length [(1 : ℚ), 1, 0, 0, 0] = 5 :=
  ⟨by decide,
   append_mask_length_srcLen (some [[0, 0]]) (some [[1, 1, 0]]) 1 5 false
    (by rintro p h; cases h; decide) (by rintro c h; cases h; decide)
    (by rintro p h h'; cases h') (by rintro p c h h'; cases h; cases h'; decide)
    (by rintro p h h'; cases h') (by rintro c h; cases h)
    [[1, 1, 0, 0, 0]] (by decide) [1, 1, 0, 0, 0] (by decide)⟩

/-- The cached attention buffer stored under the `"attn_state"` key of an
incremental state.  Fields appear in the dict-insertion order used by
`forward` (lines 349–351): `prev_key`, `prev_value`,
`prev_key_padding_mask` — the order the reorder loop iterates keys in.
`prev_key`/`prev_value` have shape `(bsz, num_heads, seq_so_far,
head_dim)`.  A key absent from the dict and a key stored with value
`None` are both `none`: `forward` and the reorder loop treat the two
identically (`prev_key`/`prev_value` are only ever stored non-None). -/
structure AttnBuffer where
  prev_key : Option T4
  prev_value : Option T4
  prev_key_padding_mask : Option KPMask
deriving DecidableEq, Repr

/-- The buffer `_get_input_buffer` returns when nothing is cached: `{}`. -/
def emptyBuffer : AttnBuffer := ⟨none, none, none⟩

/-- Modelled from the spec: the per-module incremental-state store added
by the `@with_incremental_state` decorator
(`metaseq.incremental_decoding_utils`, not under `src/`).  Spec §4.2/§6:
the store maps the fixed key `"attn_state"` to the cached buffer, and
key absence means "not yet established".  A state is modelled by the
content of that one slot; `none` when the key was never set. -/
abbrev IncrementalState : Type := Option AttnBuffer

/-- Modelled from the spec: `get(state_handle) → buffer | empty` (§4.2) —
`get_incremental_state` of `metaseq.incremental_decoding_utils` (not
under `src/`) returns `None` for a `None` state handle or a missing key,
else the stored buffer. -/
def getIncrementalState (s : Option IncrementalState) : Option AttnBuffer := s.join

/-- Modelled from the spec: `set(state_handle, buffer) → state_handle'`
(§4.2) — `set_incremental_state` (not under `src/`) installs the buffer
under the `"attn_state"` key and returns the state. -/
def setIncrementalState (_s : IncrementalState) (b : AttnBuffer) : IncrementalState :=
  some b

/-- `MultiheadAttention._get_input_buffer` (lines 551–559): the stored
buffer, or the empty buffer when nothing is stored. -/
def getInputBuffer (s : Option IncrementalState) : AttnBuffer :=
  (getIncrementalState s).getD emptyBuffer

/-- `MultiheadAttention._set_input_buffer` (lines 561–566). -/
def setInputBuffer (s : IncrementalState) (b : AttnBuffer) : IncrementalState :=
  setIncrementalState s b

/-- `torch.Tensor.index_select(0, new_order)`: pick rows of the leading
axis.  An out-of-range index is a torch runtime error; the model reads
the default `d` there, and theorems restrict to in-range orders. -/
def indexSelect0 (t : List α) (d : α) (order : List ℕ) : List α :=
  order.map fun i => t.getD i d

/-- Iteration of the `reorder_incremental_state` loop (lines 540–547) at
the key `"prev_key_padding_mask"` (the last key in insertion order). -/
def reorderStepMask (encoder_decoder_attention : Bool) (new_order : List ℕ)
    (buf : AttnBuffer) : AttnBuffer :=
  match buf.prev_key_padding_mask with
  | none => buf
  | some m =>
      if encoder_decoder_attention && (m.length == new_order.length) then buf
      else { buf with prev_key_padding_mask := some (indexSelect0 m [] new_order) }

/-- Iteration of the reorder loop at `"prev_value"`; on `break` the keys
after it are not visited, so the buffer is returned as is. -/
def reorderStepValue (encoder_decoder_attention : Bool) (new_order : List ℕ)
    (buf : AttnBuffer) : AttnBuffer :=
  match buf.prev_value with
  | none => reorderStepMask encoder_decoder_attention new_order buf
  | some v =>
      if encoder_decoder_attention && (v.length == new_order.length) then buf
      else reorderStepMask encoder_decoder_attention new_order
        { buf with prev_value := some (indexSelect0 v [] new_order) }

/-- The body of `reorder_incremental_state`'s loop over
`input_buffer.keys()` (lines 540–547), unrolled over the three keys in
insertion order starting at `"prev_key"`.  A key holding `None` is
skipped; in encoder-decoder mode a tensor whose leading size equals
`new_order`'s length triggers `break`, leaving it and every later key
untouched. -/
def reorderLoop (encoder_decoder_attention : Bool) (new_order : List ℕ)
    (buf : AttnBuffer) : AttnBuffer :=
  match buf.prev_key with
  | none => reorderStepValue encoder_decoder_attention new_order buf
  | some k =>
      if encoder_decoder_attention && (k.length == new_order.length) then buf
      else reorderStepValue encoder_decoder_attention new_order
        { buf with prev_key := some (indexSelect0 k [] new_order) }

/-- `MultiheadAttention.reorder_incremental_state` (lines 531–549).  The
`input_buffer is not None` test is always true because
`_get_input_buffer` returns `{}` rather than `None`, so
`_set_input_buffer` always runs, installing the (possibly empty,
possibly reordered) buffer back into the state. -/
def reorderIncrementalState (encoder_decoder_attention : Bool)
    (incremental_state : IncrementalState) (new_order : List ℕ) : IncrementalState :=
  let input_buffer := getInputBuffer (some incremental_state)
  setInputBuffer incremental_state
    (reorderLoop encoder_decoder_attention new_order input_buffer)

/-- Counterexample to C7 as stated: in encoder-decoder mode with
`new_order = [0]`, a cached `prev_key` of leading size 1 (equal to
`new_order`'s length) makes the loop `break`, so the cached `prev_value`
of leading size 2 is left unpermuted — although the claimed per-tensor
exception does not apply to it (its leading size differs from
`new_order`'s length, so the claim demands it be permuted, which would
change it). -/
theorem reorder_break_counterexample :
    (reorderLoop true [0]
        ⟨some [[[[1]]]], some [[[[0]]], [[[1]]]], none⟩).prev_value
      = some [[[[0]]], [[[1]]]] ∧
    indexSelect0 [[[[(0 : ℚ)]]], [[[1]]]] ([] : T3) [0] ≠ [[[[0]]], [[[1]]]] := by
  exact ⟨rfl, by decide⟩

/-- C7 (amended): `reorder_incremental_state`'s loop permutes the leading
(batch) axis of every cached tensor according to `new_order`, except
that the tensors are visited in cache-insertion order (`prev_key`,
`prev_value`, `prev_key_padding_mask`) and, in encoder-decoder
(cross-attention) mode, the first present tensor whose leading size
already equals `new_order`'s length stops the loop: it and every tensor
after it are left unpermuted. -/
theorem reorder_permutes_with_break (eda : Bool) (buf : AttnBuffer) (ord : List ℕ) :
    (eda = false →
        reorderLoop eda ord buf =
          ⟨buf.prev_key.map fun t => indexSelect0 t [] ord,
           buf.prev_value.map fun t => indexSelect0 t [] ord,
           buf.prev_key_padding_mask.map fun t => indexSelect0 t [] ord⟩)
  ∧ (∀ k, eda = true → buf.prev_key = some k → k.length = ord.length →
        reorderLoop eda ord buf = buf)
  ∧ (∀ v, eda = true →
        (∀ k, buf.prev_key = some k → k.length ≠ ord.length) →
        buf.prev_value = some v → v.length = ord.length →
        reorderLoop eda ord buf =
          { buf with prev_key := buf.prev_key.map fun t => indexSelect0 t [] ord })
  ∧ (∀ m, eda = true →
        (∀ k, buf.prev_key = some k → k.length ≠ ord.length) →
        (∀ v, buf.prev_value = some v → v.length ≠ ord.length) →
        buf.prev_key_padding_mask = some m → m.length = ord.length →
        reorderLoop eda ord buf =
          ⟨buf.prev_key.map fun t => indexSelect0 t [] ord,
           buf.prev_value.map fun t => indexSelect0 t [] ord,
           buf.prev_key_padding_mask⟩)
  ∧ (eda = true →
        (∀ k, buf.prev_key = some k → k.length ≠ ord.length) →
        (∀ v, buf.prev_value = some v → v.length ≠ ord.length) →
        (∀ m, buf.prev_key_padding_mask = some m → m.length ≠ ord.length) →
        reorderLoop eda ord buf =
          ⟨buf.prev_key.map fun t => indexSelect0 t [] ord,
           buf.prev_value.map fun t => indexSelect0 t [] ord,
           buf.prev_key_padding_mask.map fun t => indexSelect0 t [] ord⟩) := by
  obtain ⟨pk, pv, pm⟩ := buf
  refine ⟨?_, ?_, ?_, ?_, ?_⟩
  · rintro rfl
    rcases pk with _ | k <;> rcases pv with _ | v <;> rcases pm with _ | m <;>
      simp [reorderLoop, reorderStepValue, reorderStepMask]
  · rintro k rfl hk hlen
    cases hk
    simp [reorderLoop, hlen]
  · rintro v rfl hk hv hlen
    cases hv
    rcases pk with _ | k
    · simp [reorderLoop, reorderStepValue, hlen]
    · have hne : (k.length == ord.length) = false :=
        beq_eq_false_iff_ne.mpr (hk k rfl)
      simp [reorderLoop, reorderStepValue, hne, hlen]
  · rintro m rfl hk hv hm hlen
    cases hm
    rcases pk with _ | k <;> rcases pv with _ | v
    · simp [reorderLoop, reorderStepValue, reorderStepMask, hlen]
    · have hnv : (v.length == ord.length) = false :=
        beq_eq_false_iff_ne.mpr (hv v rfl)
      simp [reorderLoop, reorderStepValue, reorderStepMask, hnv, hlen]
    · have hnk : (k.length == ord.length) = false :=
        beq_eq_false_iff_ne.mpr (hk k rfl)
      simp [reorderLoop, reorderStepValue, reorderStepMask, hnk, hlen]
    · have hnk : (k.length == ord.length) = false :=
        beq_eq_false_iff_ne.mpr (hk k rfl)
      have hnv : (v.length == ord.length) = false :=
        beq_eq_false_iff_ne.mpr (hv v rfl)
      simp [reorderLoop, reorderStepValue, reorderStepMask, hnk, hnv, hlen]
  · rintro rfl hk hv hm
    rcases pk with _ | k <;> rcases pv with _ | v <;> rcases pm with _ | m
    · simp [reorderLoop, reorderStepValue, reorderStepMask]
    · simp [reorderLoop, reorderStepValue, reorderStepMask,
        beq_eq_false_iff_ne.mpr (hm _ rfl)]
    · simp [reorderLoop, reorderStepValue, reorderStepMask,
        beq_eq_false_iff_ne.mpr (hv _ rfl)]
    · simp [reorderLoop, reorderStepValue, reorderStepMask,
        beq_eq_false_iff_ne.mpr (hv _ rfl), beq_eq_false_iff_ne.mpr (hm _ rfl)]
    · simp [reorderLoop, reorderStepValue, reorderStepMask,
        beq_eq_false_iff_ne.mpr (hk _ rfl)]
    · simp [reorderLoop, reorderStepValue, reorderStepMask,
        beq_eq_false_iff_ne.mpr (hk _ rfl), beq_eq_false_iff_ne.mpr (hm _ rfl)]
    · simp [reorderLoop, reorderStepValue, reorderStepMask,
        beq_eq_false_iff_ne.mpr (hk _ rfl), beq_eq_false_iff_ne.mpr (hv _ rfl)]
    · simp [reorderLoop, reorderStepValue, reorderStepMask,
        beq_eq_false_iff_ne.mpr (hk _ rfl), beq_eq_false_iff_ne.mpr (hv _ rfl),
        beq_eq_false_iff_ne.mpr (hm _ rfl)]

/-- Witness for C7 (amended), at the spec's representative input: in
self-attention (non-cross-attention) mode, `new_order = [2, 0, 1]` on a
cache of batch size 3 selects the `prev_key` batch rows 2, 0, 1. -/
theorem reorder_permutes_with_break_witness :
    reorderLoop false [2, 0, 1] ⟨some [[[[0]]], [[[1]]], [[[2]]]], none, none⟩ =
      ⟨some [[[[2]]], [[[0]]], [[[1]]]], none, none⟩ := by
  have h := (reorder_permutes_with_break false
    ⟨some [[[[0]]], [[[1]]], [[[2]]]], none, none⟩ [2, 0, 1]).1 rfl
  rw [h]
  rfl

/-- Counterexample to C8 as stated: reordering an incremental state whose
cache was never established does change the state — `_get_input_buffer`
returns `{}` (not `None`), so the no-`break` loop body runs and
`_set_input_buffer` installs the empty buffer under the `"attn_state"`
key, which was previously absent. -/
theorem reorder_empty_cache_counterexample :
    reorderIncrementalState false none [0] ≠ (none : IncrementalState) := by
  decide

/-- C8 (amended): reordering an empty cache reorders nothing — no cached
tensor exists before or after the call and the resulting buffer is still
the empty buffer; the call's only effect on the state is installing that
empty buffer under the `"attn_state"` key, so a state that already holds
the empty buffer entry is left exactly unchanged. -/
theorem reorder_empty_cache_noop (eda : Bool) (st : IncrementalState) (ord : List ℕ)
    (h : getInputBuffer (some st) = emptyBuffer) :
    reorderIncrementalState eda st ord = some emptyBuffer ∧
      (st = some emptyBuffer → reorderIncrementalState eda st ord = st) := by
  have hloop : reorderLoop eda ord emptyBuffer = emptyBuffer := by
    simp [reorderLoop, reorderStepValue, reorderStepMask, emptyBuffer]
  constructor
  · simp [reorderIncrementalState, setInputBuffer, setIncrementalState, h, hloop]
  · rintro rfl
    simp [reorderIncrementalState, setInputBuffer, setIncrementalState, h, hloop]

/-- Witness for C8 (amended): a state already holding the empty buffer is
unchanged by a reorder. -/
theorem reorder_empty_cache_noop_witness :
    reorderIncrementalState true (some emptyBuffer) [1, 0] = some emptyBuffer ∧
      (some emptyBuffer = some emptyBuffer →
        reorderIncrementalState true (some emptyBuffer) [1, 0] = some emptyBuffer) := by
  exact reorder_empty_cache_noop true (some emptyBuffer) [1, 0] (by decide)

/-- Model of a floating-point value at the level the `torch.nan_to_num`
sanitization step (forward lines 409–428) needs: finite values are exact
rationals, and `inf`, `ninf`, `nan` are explicit.  Although the exact
rational score pipeline of this file only produces finite scores, the
scores of the real float pipeline can already be non-finite when they
reach the additive-mask step (e.g. after low-precision overflow), which
is what this step defends against; so the sanitization is verified over
arbitrary `EFloat` scores. -/
inductive EFloat where
  | fin (q : ℚ)
  | inf
  | ninf
  | nan
deriving DecidableEq, Repr

/-- Float addition on the non-finite algebra: NaN propagates, opposite
infinities give NaN, an infinity absorbs finite values.  Exact rational
addition stands in for finite rounding, which never produces NaN. -/
def EFloat.add : EFloat → EFloat → EFloat
  | nan, _ => nan
  | _, nan => nan
  | inf, ninf => nan
  | ninf, inf => nan
  | inf, _ => inf
  | _, inf => inf
  | ninf, _ => ninf
  | _, ninf => ninf
  | fin a, fin b => fin (a + b)

/-- Whether a float value is NaN. -/
def EFloat.isNaN : EFloat → Bool
  | nan => true
  | _ => false

/-- Whether a float value is finite. -/
def EFloat.isFinite : EFloat → Bool
  | fin _ => true
  | _ => false

/-- Largest finite float32 value, `(2^128 - 2^104)`: what
`torch.nan_to_num` substitutes for `+inf` on float32 tensors. -/
def floatMax : ℚ := 2 ^ 128 - 2 ^ 104

/-- `torch.nan_to_num` with default arguments (forward line 412): NaN
becomes 0, `+inf`/`-inf` become the largest/smallest finite value. -/
def nanToNum : EFloat → EFloat
  | .nan => .fin 0
  | .inf => .fin floatMax
  | .ninf => .fin (-floatMax)
  | .fin q => .fin q

/-- One score entry of the additive-mask step (lines 409–428): with an
`attn_mask` supplied, the raw score is sanitized by `torch.nan_to_num`
and the mask entry is then added. -/
def applyAttnMaskEntry (score m : EFloat) : EFloat := (nanToNum score).add m

/-- The additive-mask branch of forward (lines 409–428) on the float
level: if `attn_mask` is `None` nothing happens; otherwise the whole
score tensor `(B*H, T, S)` is sanitized entry-wise and the mask `(T, S)`
is added, broadcast over the leading axis (`attn_weights += attn_mask`
after `attn_mask.unsqueeze(0)`; the `ShardedTensor` branch is dead for
non-sharded weights). -/
def applyAttnMaskE (attn_weights : List (List (List EFloat)))
    (attn_mask : Option (List (List EFloat))) : List (List (List EFloat)) :=
  match attn_mask with
  | none => attn_weights
  | some mask =>
      attn_weights.map fun A =>
        List.zipWith (fun row mrow => List.zipWith applyAttnMaskEntry row mrow) A mask

lemma mem_zipWith {f : α → β → γ} {a : List α} {b : List β} {c : γ}
    (h : c ∈ List.zipWith f a b) : ∃ x ∈ a, ∃ y ∈ b, c = f x y := by
  induction a generalizing b with
  | nil => simp at h
  | cons x xs ih =>
    cases b with
    | nil => simp at h
    | cons y ys =>
      rcases List.mem_cons.mp h with h' | h'
      · exact ⟨x, by simp, y, by simp, h'⟩
      · obtain ⟨x', hx, y', hy, hc⟩ := ih h'
        exact ⟨x', by simp [hx], y', by simp [hy], hc⟩

lemma applyAttnMaskEntry_not_nan (s m : EFloat) (hm : m.isNaN = false) :
    (applyAttnMaskEntry s m).isNaN = false := by
  cases s <;> cases m <;> simp_all [applyAttnMaskEntry, nanToNum, EFloat.add,
    EFloat.isNaN]

/-- C9: in a forward call that supplies an additive attention mask, every
non-finite raw attention score is replaced by a finite value
(`torch.nan_to_num`) before the mask is added, so — as long as the mask
itself carries no NaN entries (causal masks carry only 0 and `-inf`) —
the post-addition scores contain no NaN: in particular no NaN arises
from adding a mask value to an already non-finite score. -/
theorem attn_mask_sanitized_no_nan
    (attn_weights : List (List (List EFloat))) (mask : List (List EFloat))
    (hm : ∀ row ∈ mask, ∀ e ∈ row, e.isNaN = false) :
    (∀ s : EFloat, (nanToNum s).isFinite = true)
  ∧ (∀ A ∈ applyAttnMaskE attn_weights (some mask), ∀ r ∈ A, ∀ e ∈ r,
      e.isNaN = false) := by
  constructor
  · intro s
    cases s <;> rfl
  · intro A hA r hr e he
    simp only [applyAttnMaskE, List.mem_map] at hA
    obtain ⟨A', _, rfl⟩ := hA
    obtain ⟨row, _, mrow, hmrow, rfl⟩ := mem_zipWith hr
    obtain ⟨s, _, m, hmem, rfl⟩ := mem_zipWith he
    exact applyAttnMaskEntry_not_nan s m (hm mrow hmrow m hmem)

/-- Witness for C9: a raw score row holding `+inf` and a NaN, masked by a
causal-style row `[0, -inf]`, yields NaN-free post-addition scores. -/
theorem attn_mask_sanitized_no_nan_witness :
    (∀ s : EFloat, (nanToNum s).isFinite = true)
  ∧ (∀ A ∈ applyAttnMaskE [[[EFloat.inf, EFloat.nan]]]
        (some [[EFloat.fin 0, EFloat.ninf]]), ∀ r ∈ A, ∀ e ∈ r,
      e.isNaN = false) := by
  exact attn_mask_sanitized_no_nan [[[EFloat.inf, EFloat.nan]]]
    [[EFloat.fin 0, EFloat.ninf]] (by decide)

/-- Configuration and learned parameters of a `MultiheadAttention` module
(constructor, lines 29–101).  `__init__` takes `embed_dim` and
`num_heads`, computes `head_dim = embed_dim // num_heads` and asserts
exact divisibility, so the module is parameterized here by `num_heads`
and `head_dim` with `embed_dim = num_heads * head_dim`.  `kdim`/`vdim`
equal `embed_dim` (their default).  `scaling` carries the float value of
`head_dim ** -0.5` as an exact rational parameter.  Each projection is
the externalized `Linear` collaborator: a `(out_features, in_features)`
weight with a bias.  `bias_k`/`bias_v` are the optional `add_bias_kv`
parameters (shape `(1, 1, embed_dim)`, kept as one embedding vector).
Projection weights are not sharded (all `ShardedTensor` branches of
`forward` are dead then) and `onnx_trace` is false. -/
structure MHA where
  num_heads : ℕ
  head_dim : ℕ
  self_attention : Bool
  encoder_decoder_attention : Bool
  q_proj_weight : T2
  q_proj_bias : T1
  k_proj_weight : T2
  k_proj_bias : T1
  v_proj_weight : T2
  v_proj_bias : T1
  out_proj_weight : T2
  out_proj_bias : T1
  scaling : ℚ
  bias_k : Option T1
  bias_v : Option T1
  add_zero_attn : Bool
deriving Repr

/-- The configured embedding dimension of the module. -/
def MHA.embed_dim (M : MHA) : ℕ := M.num_heads * M.head_dim

/-- Modelled from the spec: the externalized linear-projection primitive
(`metaseq.modules.linear.Linear`, not under `src/`; spec §6:
`project(input, weight, bias?) → output`): `y = W·x + b` with `W` of
shape `(out_features, in_features)`. -/
def linearVec (W : T2) (b : T1) (x : T1) : T1 :=
  List.zipWith (fun row be => dotQ row x + be) W b

/-- A linear projection applied to every row of a `(bsz, dim)` slice. -/
def linearPos (W : T2) (b : T1) (pos : T2) : T2 := pos.map (linearVec W b)

/-- A linear projection applied position-wise to a `(len, bsz, dim)`
tensor. -/
def linearSeq (W : T2) (b : T1) (x : T3) : T3 := x.map (linearPos W b)

/-- Scalar multiplication of a rank-3 tensor (`q = q * self.scaling`,
line 243). -/
def smulT3 (c : ℚ) (x : T3) : T3 := x.map (List.map (List.map (fun q => c * q)))

/-- The `view(len, bsz * num_heads, head_dim)` reshape of one
`(bsz, embed_dim)` position slice: every embedding row is cut into
`num_heads` chunks of length `head_dim`. -/
def splitHeadsPos (H D : ℕ) (pos : T2) : T2 := (pos.map (chunkN H D)).flatten

/-- Head split (lines 280–284): `view(len, bsz*heads, head_dim)` followed
by `transpose(0, 1)`, giving `(bsz*heads, len, head_dim)`. -/
def headSplit (H D : ℕ) (x : T3) : T3 := transpose2 (x.map (splitHeadsPos H D)) []

/-- One position of the head merge: `view(tgt_len, bsz, embed_dim)` glues
each group of `num_heads` consecutive `head_dim`-rows back into one
embedding row. -/
def mergeHeadsPos (B H : ℕ) (pos : T2) : T2 := (chunkN B H pos).map List.flatten

/-- Head merge (lines 459 and 473): `transpose(0, 1)` then
`view(tgt_len, bsz, embed_dim)`. -/
def mergeHeads (B H : ℕ) (x : T3) : T3 := (transpose2 x []).map (mergeHeadsPos B H)

/-- A score value after masking: `-inf` or a finite rational.  The exact
pipeline produces only finite raw scores, so `-inf` can enter only
through masks; the float-level non-finite algebra around
`torch.nan_to_num` is modelled by `EFloat` above. -/
inductive SVal where
  | ninf
  | val (q : ℚ)
deriving DecidableEq, Repr

/-- Adding an additive-mask entry to a finite raw score. -/
def SVal.addTo (m : SVal) (q : ℚ) : SVal :=
  match m with
  | ninf => ninf
  | val a => val (q + a)

/-- An additive attention mask of shape `(tgt_len, src_len)`; entries are
typically 0 (keep) or `-inf` (exclude). -/
abbrev AMask : Type := List (List SVal)

/-- Rank-3 tensor of possibly `-inf` scores, shape `(B*H, T, S)`. -/
abbrev ST3 : Type := List (List (List SVal))

/-- Raw rational scores seen as maskable scores. -/
def injectScores (x : T3) : ST3 := x.map (List.map (List.map SVal.val))

/-- The additive-mask branch (lines 409–428) on the exact pipeline: raw
scores are finite rationals, so the `torch.nan_to_num` of line 412 is
the identity here (its float-level content is `applyAttnMaskE`); the
`(tgt_len, src_len)` mask is added broadcast over the leading axis
(`attn_weights += attn_mask` after `unsqueeze(0)`). -/
def applyAttnMask (scores : T3) (mask : AMask) : ST3 :=
  scores.map fun A =>
    List.zipWith (fun row mrow => List.zipWith (fun q m => m.addTo q) row mrow) A mask

/-- Fill one score row with `-inf` where the padding-mask row is nonzero
(`.to(torch.bool)` makes any nonzero entry mask). -/
def maskRowFill (mrow : T1) (row : List SVal) : List SVal :=
  List.zipWith (fun x m => if m = 0 then x else SVal.ninf) row mrow

/-- The key-padding-mask step (lines 430–437): view the scores as
`(bsz, heads, tgt_len, src_len)`, set entries whose batch's mask is
nonzero to `-inf` (broadcast over heads and target positions), view
back. -/
def applyKeyPaddingMask (B H : ℕ) (scores : ST3) (kpm : KPMask) : ST3 :=
  (List.zipWith (fun group mrow => group.map fun A => A.map (maskRowFill mrow))
    (chunkN B H scores) kpm).flatten

/-- Exponential weight of a possibly `-inf` score: `exp(-inf) = 0`, and a
finite score goes through the exponential parameter `Eexp`. -/
def expw (Eexp : ℚ → ℚ) : SVal → ℚ
  | .ninf => 0
  | .val q => Eexp q

/-- Modelled from the spec: `utils.softmax` (`metaseq/utils.py`, not
under `src/`; spec §4.1: "numerically stable softmax over the
source-length axis, computed in at least 32-bit floating precision").
In exact arithmetic the stabilizing shift and the precision cast are the
identity, so the mathematical softmax `exp(x_i) / Σ_j exp(x_j)` is
modelled, with the exponential supplied as a parameter `Eexp`;
`exp(-inf) = 0`.  A row that is entirely `-inf` yields `0/0 = 0`
entries over `ℚ` — a defined, NaN-free output as spec §7 requires. -/
def softmaxRow (Eexp : ℚ → ℚ) (row : List SVal) : T1 :=
  let den := (row.map (expw Eexp)).sum
  row.map fun x => expw Eexp x / den

/-- Softmax over the last axis of the `(B*H, T, S)` score tensor. -/
def softmaxLast (Eexp : ℚ → ℚ) (x : ST3) : T3 :=
  x.map fun A => A.map (softmaxRow Eexp)

/-- Modelled from the spec: the externalized dropout collaborator
(`metaseq.modules.dropout.Dropout`, not under `src/`; spec §6:
`apply(input, rate, active) → output` "randomly zeroes activations at a
given rate during training").  One call applies an entry-wise
transformation to the probability tensor — the identity when inactive or
at rate 0, zeroing/rescaling by the sampled mask when active; the
action of this call is supplied as the parameter `dropout`. -/
def applyDropout (dropout : ℚ → ℚ) (x : T3) : T3 :=
  x.map (List.map (List.map dropout))

/-- `MultiheadAttention.apply_sparse_mask` (lines 568–569): the identity
hook. -/
def applySparseMask (attn_weights : T3) (_tgt_len _src_len _bsz : ℕ) : T3 :=
  attn_weights

/-- Entry-wise sum of two rank-3 tensors (for the head average). -/
def addT3 (a b : T3) : T3 :=
  List.zipWith (fun A B => List.zipWith (fun r s => List.zipWith (· + ·) r s) A B) a b

/-- `.mean(dim=0)` of a nonempty `(H, B, T, S)` tensor (line 483). -/
def meanDim0 (w : T4) : T3 :=
  match w with
  | [] => []
  | x :: xs => smulT3 (1 / ((xs.length : ℚ) + 1)) (xs.foldl addT3 x)

/-- The attention weights a forward call can report: per-head weights of
shape `(num_heads, bsz, tgt_len, src_len)` or the head average of shape
`(bsz, tgt_len, src_len)`. -/
inductive RetWeights where
  | perHead (w : T4)
  | averaged (w : T3)
deriving Repr

/-- Weight reporting (lines 476–484): reshape the softmax probabilities
to `(bsz, num_heads, tgt_len, src_len)`, `transpose(1, 0)` into
`(num_heads, bsz, tgt_len, src_len)`, and — unless per-head weights were
requested — average over the head axis, which after the transposition is
axis 0. -/
def mkRetWeights (B H : ℕ) (need_head_weights : Bool) (attn_weights_float : T3) :
    RetWeights :=
  let w := transpose2 (chunkN B H attn_weights_float) []
  if need_head_weights then .perHead w else .averaged (meanDim0 w)

/-- Python `assert cond` (and hard torch layout errors): `none` — an
`AssertionError` — unless `cond` holds. -/
def assertB (cond : Bool) : Option Unit := if cond then some () else none

/-- Sizes `(t.size(0), t.size(1), t.size(2))` of a (rectangular) rank-3
tensor. -/
def size3 (x : List (List (List α))) : ℕ × ℕ × ℕ :=
  (x.length, (x.headD []).length, ((x.headD []).headD []).length)

/-- The value a forward call returns: the normal `(attn, attn_weights)`
pair, or the `before_softmax` early return `(attn_weights, v)` of lines
439–440. -/
inductive FwdPayload where
  | normal (attn : T3) (attn_weights : Option RetWeights)
  | preSoftmax (attn_weights : ST3) (v : Option T3)

/-- Result of a forward call: its returned payload together with the
content of the incremental state after the call (the in-place mutation
performed at lines 349–354), mirroring the input: `none` when no
incremental state was supplied. -/
structure FwdResult where
  payload : FwdPayload
  new_incremental_state : Option IncrementalState

/-- Lines 167–176: dimension preconditions, returning `src_len`.  Sizes
are read off the nested lists.  The Python
`assert src_len, bsz == value.shape[:2]` (line 176) is an `assert` with
a message — the comma does not build a tuple — so it only checks that
`src_len` is nonzero; modelled as exactly that. -/
def checkDims (M : MHA) (query : T3) (key value : Option T3) : Option ℕ := do
  let tgt_len := query.length
  let bsz := size1 query
  let embed_dim := ((query.headD []).headD []).length
  assertB (embed_dim == M.embed_dim)
  match key with
  | none => pure tgt_len
  | some kk => do
      assertB (size1 kk == bsz)
      assertB value.isSome
      assertB (kk.length != 0)
      pure kk.length

/-- Lines 213–222: if the cache already holds previous time steps and
`static_kv` is requested, assert the encoder-decoder-mode precondition
and drop `key`/`value` (no reprojection). -/
def staticClearKV (M : MHA) (saved_state : Option AttnBuffer) (static_kv : Bool)
    (key value : Option T3) : Option (Option T3 × Option T3) :=
  match saved_state with
  | some saved =>
      if saved.prev_key.isSome && static_kv then do
        assertB (M.encoder_decoder_attention && !M.self_attention)
        pure (none, none)
      else pure (key, value)
  | none => pure (key, value)

/-- Lines 224–242: the mode dispatch computing `q`, `k`, `v`.  In
self-attention all three project `query`; in encoder-decoder attention
`k` and `v` both project `key` (line 236 applies `v_proj` to `key`), or
are `None` when `key` is; the general mode projects all three inputs. -/
def projectQKV (M : MHA) (query : T3) (key value : Option T3) :
    Option (T3 × Option T3 × Option T3) :=
  if M.self_attention then
    pure (linearSeq M.q_proj_weight M.q_proj_bias query,
          some (linearSeq M.k_proj_weight M.k_proj_bias query),
          some (linearSeq M.v_proj_weight M.v_proj_bias query))
  else if M.encoder_decoder_attention then
    match key with
    | none => do
        assertB value.isNone
        pure (linearSeq M.q_proj_weight M.q_proj_bias query,
              (none : Option T3), (none : Option T3))
    | some kk =>
        pure (linearSeq M.q_proj_weight M.q_proj_bias query,
              some (linearSeq M.k_proj_weight M.k_proj_bias kk),
              some (linearSeq M.v_proj_weight M.v_proj_bias kk))
  else do
    assertB (key.isSome && value.isSome)
    pure (linearSeq M.q_proj_weight M.q_proj_bias query,
          some (linearSeq M.k_proj_weight M.k_proj_bias (key.getD [])),
          some (linearSeq M.v_proj_weight M.v_proj_bias (value.getD [])))

/-- Lines 245–260: appending the learned `bias_k`/`bias_v` position (one
extra source position, broadcast over the batch) and extending the masks
by one non-masked column.  `torch.cat` over a `None` tensor raises. -/
def applyBiasKV (M : MHA) (bsz : ℕ) (k v : Option T3) (attn_mask : Option AMask)
    (key_padding_mask : Option KPMask) :
    Option (Option T3 × Option T3 × Option AMask × Option KPMask) :=
  match M.bias_k with
  | none => pure (k, v, attn_mask, key_padding_mask)
  | some bk => do
      assertB M.bias_v.isSome
      assertB (k.isSome && v.isSome)
      pure (some (k.getD [] ++ [List.replicate bsz bk]),
            some (v.getD [] ++ [List.replicate bsz (M.bias_v.getD [])]),
            attn_mask.map (fun am => am.map fun row => row ++ [SVal.val 0]),
            key_padding_mask.map (fun m => m.map fun row => row ++ [(0 : ℚ)]))

/-- Lines 316–354: concatenate (or, under `static_kv`, replace by) the
cached `prev_key`/`prev_value`, recompute `src_len`, combine the padding
masks per `_append_prev_key_padding_mask`, and write the updated buffer
back into the incremental state.  The cached 4-D tensors are read
through `view(bsz * num_heads, -1, head_dim)` and written back through
`view(bsz, num_heads, -1, head_dim)`. -/
def cacheUpdate (M : MHA) (bsz : ℕ) (saved : AttnBuffer) (st : IncrementalState)
    (static_kv : Bool) (k v : Option T3) (key_padding_mask : Option KPMask)
    (src_len : ℕ) :
    Option (Option T3 × Option T3 × Option KPMask × ℕ × Option IncrementalState) := do
  let (k, src_len) ←
    match saved.prev_key with
    | none => pure (k, src_len)
    | some pk => do
        let prev_key := pk.flatten
        if static_kv then
          pure ((some prev_key : Option T3), size1 prev_key)
        else do
          assertB k.isSome
          let kcat := catDim1 prev_key (k.getD [])
          pure (some kcat, size1 kcat)
  let v ←
    match saved.prev_value with
    | none => pure v
    | some pv => do
        let prev_value := pv.flatten
        if static_kv then pure (some prev_value : Option T3)
        else do
          assertB v.isSome
          pure (some (catDim1 prev_value (v.getD [])))
  let prev_key_padding_mask := saved.prev_key_padding_mask
  assertB (k.isSome && v.isSome)
  let kk := k.getD []
  let key_padding_mask := appendPrevKeyPaddingMask key_padding_mask
    prev_key_padding_mask bsz (size1 kk) static_kv
  let buf : AttnBuffer :=
    ⟨some (chunkN bsz M.num_heads kk),
     some (chunkN bsz M.num_heads (v.getD [])),
     key_padding_mask⟩
  pure (k, v, key_padding_mask, src_len, some (setInputBuffer st buf))

/-- Lines 363–365: the combined padding mask, when present, must have
shape `(bsz, src_len)`. -/
def checkKpmSizes (bsz src_len : ℕ) (kpm : Option KPMask) : Option Unit :=
  match kpm with
  | none => pure ()
  | some m => do
      assertB (m.length == bsz)
      assertB (size1 m == src_len)

/-- Lines 367–385: optional zero-attention: append one all-zero source
position to `k` and `v`, bump `src_len`, extend both masks by one
non-masked column. -/
def zeroAttnStage (M : MHA) (k : T3) (v : Option T3) (src_len : ℕ)
    (attn_mask : Option AMask) (key_padding_mask : Option KPMask) :
    Option (T3 × Option T3 × ℕ × Option AMask × Option KPMask) :=
  if M.add_zero_attn then do
    assertB v.isSome
    let dk := ((k.headD []).headD []).length
    let vv := v.getD []
    let dv := ((vv.headD []).headD []).length
    pure (k.map (fun rows => rows ++ [List.replicate dk (0 : ℚ)]),
          some (vv.map fun rows => rows ++ [List.replicate dv (0 : ℚ)]),
          src_len + 1,
          attn_mask.map (fun am => am.map fun row => row ++ [SVal.val 0]),
          key_padding_mask.map (fun m => m.map fun row => row ++ [(0 : ℚ)]))
  else
    pure (k, v, src_len, attn_mask, key_padding_mask)

/-- Lines 409–437: the masking of the raw scores — additive attention
mask (over sanitized scores, see `applyAttnMaskE` for the float level)
followed by the boolean key-padding mask. -/
def maskScores (B H : ℕ) (attn_weights : T3) (attn_mask : Option AMask)
    (key_padding_mask : Option KPMask) : ST3 :=
  let masked : ST3 :=
    match attn_mask with
    | none => injectScores attn_weights
    | some mask => applyAttnMask attn_weights mask
  match key_padding_mask with
  | none => masked
  | some m => applyKeyPaddingMask B H masked m

/-- Lines 445–484: float32 softmax (exact here), dropout on the
probabilities, value aggregation, head merge, output projection, and
weight reporting from the pre-dropout probabilities. -/
def attnOutputStage (M : MHA) (Eexp dropout : ℚ → ℚ) (bsz tgt_len : ℕ)
    (need_weights need_head_weights : Bool) (masked : ST3) (v : Option T3) :
    Option (T3 × Option RetWeights) := do
  let attn_weights_float := softmaxLast Eexp masked
  let attn_probs := applyDropout dropout attn_weights_float
  assertB v.isSome
  let v := v.getD []
  let attn := bmm3 attn_probs v
  assertB (size3 attn == (bsz * M.num_heads, tgt_len, M.head_dim))
  let attn := mergeHeads bsz M.num_heads attn
  let attn := linearSeq M.out_proj_weight M.out_proj_bias attn
  let ret_weights : Option RetWeights :=
    if need_weights then
      some (mkRetWeights bsz M.num_heads need_head_weights attn_weights_float)
    else none
  pure (attn, ret_weights)

/-- The `forward` method (lines 134–485), for a module with non-sharded
weights, outside ONNX tracing and TorchScript scripting, assembled from
the stages above (each stage names the source lines it translates).

Modelling notes:
* lines 164–165: `need_head_weights` forces `need_weights`.
* lines 178–211: the fused fast path delegates to the external
  `F.multi_head_attention_forward` when there is no incremental state,
  no `static_kv` and no sharding.  Modelled from the spec: §9 treats the
  fused backend as a swappable optimization "without changing the
  externally observable contract in §4.1", so the model continues with
  the non-fused computation in that case as well.
* lines 262–314, 394–404, 419–426, 443–444, 462–472: `ShardedTensor`
  branches — dead for non-sharded weights.
* lines 358–361: the 0-dim `key_padding_mask` workaround has no
  counterpart; 0-dimensional tensors do not arise in the list model.
* line 412: `torch.nan_to_num` is the identity on the exact (finite)
  scores of this pipeline; its float-level content is `applyAttnMaskE`.
* lines 445–448: the float32 softmax precision casts are the identity
  in exact arithmetic. -/
def forward (M : MHA) (Eexp dropout : ℚ → ℚ) (query : T3)
    (key value : Option T3) (key_padding_mask : Option KPMask)
    (incremental_state : Option IncrementalState)
    (need_weights : Bool) (static_kv : Bool) (attn_mask : Option AMask)
    (before_softmax : Bool) (need_head_weights : Bool) :
    Option FwdResult := do
  let need_weights := need_weights || need_head_weights
  let tgt_len := query.length
  let bsz := size1 query
  let src_len ← checkDims M query key value
  let saved_state : Option AttnBuffer :=
    incremental_state.map fun st => getInputBuffer (some st)
  let (key, value) ← staticClearKV M saved_state static_kv key value
  let (q, k, v) ← projectQKV M query key value
  let q := smulT3 M.scaling q
  let (k, v, attn_mask, key_padding_mask) ←
    applyBiasKV M bsz k v attn_mask key_padding_mask
  let q := headSplit M.num_heads M.head_dim q
  let k := k.map (headSplit M.num_heads M.head_dim)
  let v := v.map (headSplit M.num_heads M.head_dim)
  let (k, v, key_padding_mask, src_len, new_incremental_state) ←
    match saved_state, incremental_state with
    | some saved, some st =>
        cacheUpdate M bsz saved st static_kv k v key_padding_mask src_len
    | _, _ =>
        pure (k, v, key_padding_mask, src_len, (none : Option IncrementalState))
  assertB k.isSome
  let k := k.getD []
  assertB (size1 k == src_len)
  checkKpmSizes bsz src_len key_padding_mask
  let (k, v, src_len, attn_mask, key_padding_mask) ←
    zeroAttnStage M k v src_len attn_mask key_padding_mask
  let attn_weights := bmm3 q (transpose12 k)
  let attn_weights := applySparseMask attn_weights tgt_len src_len bsz
  assertB (size3 attn_weights == (bsz * M.num_heads, tgt_len, src_len))
  let masked := maskScores bsz M.num_heads attn_weights attn_mask key_padding_mask
  if before_softmax then
    pure ⟨.preSoftmax masked v, new_incremental_state⟩
  else do
    let (attn, ret_weights) ← attnOutputStage M Eexp dropout bsz tgt_len
      need_weights need_head_weights masked v
    pure ⟨.normal attn ret_weights, new_incremental_state⟩

/-- Counterexample to C5 as stated: a forward call on a self-attention
module with `static_kv = True` completes normally — returning an output —
when no incremental state is supplied, because the `static_kv`
precondition assert (line 219) is only reached when an incremental state
whose cache holds `prev_key` is present.  (With `static_kv = True` the
fused fast path of lines 178–211 is skipped — its guard requires
`not static_kv` — so this is the ordinary non-fused path.) -/
theorem self_attn_static_kv_completes :
    (forward ⟨1, 1, true, false, [[1]], [0], [[1]], [0], [[1]], [0], [[1]], [0], 1,
        none, none, false⟩
      (fun _ => 1) id [[[1]]] none none none none true true none false false).isSome
      = true := rfl

/-- C5 (amended): a forward call on a self-attention module with
`static_kv = True` fails with the fatal precondition assert of line 219
exactly when that flag would take effect: when an incremental state is
supplied whose cache already holds `prev_key`.  (Calls without an
incremental state, or on a not-yet-populated cache, never reach the
assert and can complete normally — see the counterexample.) -/
theorem self_attn_static_kv_fails (M : MHA) (Eexp dropout : ℚ → ℚ) (query : T3)
    (key value : Option T3) (kpm : Option KPMask) (st : IncrementalState)
    (attn_mask : Option AMask) (nw bs nhw : Bool)
    (hself : M.self_attention = true)
    (hprev : (getInputBuffer (some st)).prev_key.isSome = true) :
    forward M Eexp dropout query key value kpm (some st) nw true attn_mask bs nhw
      = none := by
  have hclear :
      staticClearKV M (some (getInputBuffer (some st))) true key value = none := by
    simp [staticClearKV, hprev, hself, assertB]
  unfold forward
  cases hd : checkDims M query key value with
  | none => simp [hd]
  | some s => simp [hd, hclear]

/-- Witness for C5 (amended): on a concrete self-attention module whose
incremental cache holds a `prev_key`, the `static_kv` call fails. -/
theorem self_attn_static_kv_fails_witness :
    forward ⟨1, 1, true, false, [[1]], [0], [[1]], [0], [[1]], [0], [[1]], [0], 1,
        none, none, false⟩
      (fun _ => 1) id [[[1]]] none none none
      (some (some ⟨some [[[[1]]]], some [[[[1]]]], none⟩)) true true none false false
      = none := by
  exact self_attn_static_kv_fails _ _ _ _ _ _ _ _ _ _ _ _ rfl rfl

/-- The attention-weights component of a forward result (`none` also for
a `before_softmax` early return, which reports raw scores instead). -/
def FwdResult.returnedWeights : FwdResult → Option RetWeights
  | ⟨.normal _ w, _⟩ => w
  | ⟨.preSoftmax _ _, _⟩ => none

lemma map_bind_congr {α β γ : Type _} {x : Option α} {f f' : α → Option β} {g : β → γ}
    (h : ∀ a, (f a).map g = (f' a).map g) :
    ((x >>= f).map g) = ((x >>= f').map g) := by
  cases x with
  | none => rfl
  | some a => exact h a

lemma size3_bmm3_applyDropout (dp : ℚ → ℚ) (x v : T3) :
    size3 (bmm3 (applyDropout dp x) v) = size3 (bmm3 x v) := by
  cases x with
  | nil => cases v <;> rfl
  | cons A xs =>
    cases v with
    | nil => rfl
    | cons B vs =>
      cases A with
      | nil => simp [bmm3, applyDropout, matMul, size3]
      | cons r rs => simp [bmm3, applyDropout, matMul, size3]

lemma attnOutputStage_map_snd (M : MHA) (Eexp dp1 dp2 : ℚ → ℚ) (bsz tgt : ℕ)
    (nw nhw : Bool) (masked : ST3) (v : Option T3) :
    (attnOutputStage M Eexp dp1 bsz tgt nw nhw masked v).map Prod.snd
      = (attnOutputStage M Eexp dp2 bsz tgt nw nhw masked v).map Prod.snd := by
  cases v with
  | none => rfl
  | some vv =>
    unfold attnOutputStage
    have e1 := size3_bmm3_applyDropout dp1 (softmaxLast Eexp masked) vv
    have e2 := size3_bmm3_applyDropout dp2 (softmaxLast Eexp masked) vv
    simp only [assertB, Option.isSome_some, if_true, Option.getD_some, Option.some_bind,
      e1, e2]
    cases h : (size3 (bmm3 (softmaxLast Eexp masked) vv)
        == (bsz * M.num_heads, tgt, M.head_dim)) <;> simp [h]

lemma weights_last_step {x y : Option (T3 × Option RetWeights)}
    {ns : Option IncrementalState}
    (h : x.map Prod.snd = y.map Prod.snd) :
    ((x >>= fun p => pure (FwdResult.mk (.normal p.1 p.2) ns)).map
        FwdResult.returnedWeights)
      = ((y >>= fun p => pure (FwdResult.mk (.normal p.1 p.2) ns)).map
        FwdResult.returnedWeights) := by
  cases x with
  | none =>
    cases y with
    | none => rfl
    | some q => simp at h
  | some p =>
    cases y with
    | none => simp at h
    | some q =>
      simp only [Option.map_some', Option.some.injEq] at h
      simp [FwdResult.returnedWeights, h]

/-- C10: on the non-fused path (here: with an incremental state
supplied), the reported attention weights are computed from the
pre-dropout softmax probabilities (`attn_weights_float`, line 478) while
the output tensor is computed from the post-dropout probabilities
(`attn_probs`, line 452): two forward calls differing only in the action
of the dropout module — identity when inactive, mask scaling when
active — report exactly the same weights. -/
theorem reported_weights_pre_dropout (M : MHA) (Eexp dp1 dp2 : ℚ → ℚ)
    (query : T3) (key value : Option T3) (kpm : Option KPMask)
    (st : IncrementalState) (nw skv : Bool) (am : Option AMask) (bs nhw : Bool) :
    (forward M Eexp dp1 query key value kpm (some st) nw skv am bs nhw).map
        FwdResult.returnedWeights
      = (forward M Eexp dp2 query key value kpm (some st) nw skv am bs nhw).map
        FwdResult.returnedWeights := by
  unfold forward
  apply map_bind_congr; intro src_len
  apply map_bind_congr; rintro ⟨key', value'⟩
  apply map_bind_congr; rintro ⟨q, k, v⟩
  apply map_bind_congr; rintro ⟨k1, v1, am1, kpm1⟩
  apply map_bind_congr; rintro ⟨k2, v2, kpm2, sl2, ns2⟩
  apply map_bind_congr; rintro _
  apply map_bind_congr; rintro _
  apply map_bind_congr; rintro _
  apply map_bind_congr; rintro ⟨k3, v3, sl3, am3, kpm3⟩
  apply map_bind_congr; rintro _
  cases bs with
  | true => rfl
  | false =>
    exact weights_last_step (attnOutputStage_map_snd M Eexp dp1 dp2 _ _ _ _ _ _)

lemma chunkN_flatten (x : List (List α)) (B H : ℕ) (hB : x.length = B)
    (hH : ∀ b ∈ x, b.length = H) : chunkN B H x.flatten = x := by
  induction x generalizing B with
  | nil => cases hB; rfl
  | cons b bs ih =>
    cases hB
    have hb : b.length = H := hH b (by simp)
    simp only [List.flatten_cons, List.length_cons, chunkN]
    rw [List.take_left' hb, List.drop_left' hb,
      ih bs.length rfl (fun c hc => hH c (by simp [hc]))]

/-- C3: once `static_kv` reuse is requested and the incremental cache
already holds `prev_key`/`prev_value`, a forward call never overwrites
them with newly projected tensors: the cached tensors are only read
(`k = prev_key`, line 323; `v = prev_value`, line 333) and the write-back
of lines 349–350 stores exactly the tensors read, so after every such
(successful) call the cache holds the same `prev_key` and `prev_value`
values as before.  The rectangularity hypotheses state that the cached
4-D `(bsz, num_heads, L, head_dim)` tensors have the declared leading
sizes, which the `view` round-trip of lines 321/349 relies on. -/
theorem static_kv_preserves_cache (M : MHA) (Eexp dp : ℚ → ℚ) (query : T3)
    (key value : Option T3) (kpm : Option KPMask) (st : IncrementalState)
    (nw bs nhw : Bool) (am : Option AMask) (pk pv : T4) (r : FwdResult)
    (heda : M.encoder_decoder_attention = true)
    (hself : M.self_attention = false)
    (hpk : (getInputBuffer (some st)).prev_key = some pk)
    (hpv : (getInputBuffer (some st)).prev_value = some pv)
    (hpkB : pk.length = size1 query) (hpkH : ∀ b ∈ pk, b.length = M.num_heads)
    (hpvB : pv.length = size1 query) (hpvH : ∀ b ∈ pv, b.length = M.num_heads)
    (hfwd : forward M Eexp dp query key value kpm (some st) nw true am bs nhw
      = some r) :
    ∃ buf', r.new_incremental_state = some (some buf') ∧
      buf'.prev_key = some pk ∧ buf'.prev_value = some pv := by
  unfold forward at hfwd
  cases hd : checkDims M query key value with
  | none => rw [hd] at hfwd; simp at hfwd
  | some s =>
    rw [hd] at hfwd
    cases hbk : M.bias_k with
    | some bk =>
      simp [staticClearKV, hpk, heda, hself, assertB, projectQKV, applyBiasKV,
        hbk] at hfwd
    | none =>
      simp only [Option.map_some', Option.some_bind] at hfwd
      simp [staticClearKV, hpk, heda, hself, assertB, projectQKV, applyBiasKV, hbk,
        cacheUpdate, hpv, setInputBuffer, setIncrementalState,
        chunkN_flatten pk (size1 query) M.num_heads hpkB hpkH,
        chunkN_flatten pv (size1 query) M.num_heads hpvB hpvH] at hfwd
      rcases Option.bind_eq_some.mp hfwd with ⟨u1, hu1, hfwd⟩
      rcases Option.bind_eq_some.mp hfwd with ⟨u2, hu2, hfwd⟩
      rcases Option.bind_eq_some.mp hfwd with ⟨u3, hu3, hfwd⟩
      split at hfwd
      · injection hfwd with h
        subst h
        exact ⟨_, rfl, rfl, rfl⟩
      · rcases Option.bind_eq_some.mp hfwd with ⟨p, hp, hfwd⟩
        injection hfwd with h
        subst h
        exact ⟨_, rfl, rfl, rfl⟩

/-- Witness for C3: a concrete encoder-decoder module whose cache holds
`prev_key`/`prev_value` of batch 1; the `static_kv` call succeeds and
the cache afterwards holds exactly the same two tensors. -/
theorem static_kv_preserves_cache_witness :
    ∃ r buf',
      forward ⟨1, 1, false, true, [[1]], [0], [[1]], [0], [[1]], [0], [[1]], [0], 1,
          none, none, false⟩
        (fun _ => 1) id [[[1]]] none none none
        (some (some ⟨some [[[[1]]]], some [[[[2]]]], none⟩)) false true none
        false false = some r ∧
      r.new_incremental_state = some (some buf') ∧
      buf'.prev_key = some [[[[1]]]] ∧ buf'.prev_value = some [[[[2]]]] := by
  rcases hr : forward ⟨1, 1, false, true, [[1]], [0], [[1]], [0], [[1]], [0],
      [[1]], [0], 1, none, none, false⟩
      (fun _ => 1) id [[[1]]] none none none
      (some (some ⟨some [[[[1]]]], some [[[[2]]]], none⟩)) false true none
      false false with _ | r
  · have hs : (forward ⟨1, 1, false, true, [[1]], [0], [[1]], [0], [[1]], [0],
        [[1]], [0], 1, none, none, false⟩
        (fun _ => 1) id [[[1]]] none none none
        (some (some ⟨some [[[[1]]]], some [[[[2]]]], none⟩)) false true none
        false false).isSome = true := rfl
    rw [hr] at hs
    cases hs
  · obtain ⟨buf', h1, h2, h3⟩ := static_kv_preserves_cache
      ⟨1, 1, false, true, [[1]], [0], [[1]], [0], [[1]], [0], [[1]], [0], 1,
        none, none, false⟩
      (fun _ => 1) id [[[1]]] none none none
      (some ⟨some [[[[1]]]], some [[[[2]]]], none⟩) false false false none
      [[[[1]]]] [[[[2]]]] r rfl rfl rfl rfl rfl (by decide) rfl (by decide) hr
    exact ⟨r, buf', rfl, h1, h2, h3⟩



/-- Rectangularity of a rank-3 tensor with sizes `(a, b, c)`. -/
def Rect3 (x : List (List (List α))) (a b c : ℕ) : Prop :=
  x.length = a ∧ ∀ A ∈ x, A.length = b ∧ ∀ r ∈ A, r.length = c

lemma chunkN_length (k n : ℕ) (l : List α) : (chunkN k n l).length = k := by
  induction k generalizing l with
  | zero => rfl
  | succ k ih => simp [chunkN, ih]

lemma mem_chunkN {k n : ℕ} {l c : List α} (hc : c ∈ chunkN k n l) :
    ∀ a ∈ c, a ∈ l := by
  induction k generalizing l with
  | zero => simp [chunkN] at hc
  | succ k ih =>
    simp only [chunkN, List.mem_cons] at hc
    rcases hc with rfl | hc
    · exact fun a ha => List.take_subset _ _ ha
    · exact fun a ha => List.drop_subset _ _ (ih hc a ha)

lemma mem_chunkN_length {k n : ℕ} {l c : List α}
    (h : k * n ≤ l.length) (hc : c ∈ chunkN k n l) : c.length = n := by
  induction k generalizing l with
  | zero => simp [chunkN] at hc
  | succ k ih =>
    rw [Nat.succ_mul] at h
    simp only [chunkN, List.mem_cons] at hc
    rcases hc with rfl | hc
    · rw [List.length_take]
      omega
    · apply ih _ hc
      rw [List.length_drop]
      omega

lemma headD_chunkN_length {k n : ℕ} {l : List α} (hk : 0 < k)
    (h : k * n ≤ l.length) : ((chunkN k n l).headD []).length = n := by
  cases k with
  | zero => omega
  | succ k =>
    rw [Nat.succ_mul] at h
    simp only [chunkN, List.headD_cons, List.length_take]
    omega

lemma transpose2_length (m : List (List α)) (d : α) :
    (transpose2 m d).length = (m.headD []).length := by
  simp [transpose2]

lemma mem_transpose2 {m : List (List α)} {d : α} {x : List α}
    (hx : x ∈ transpose2 m d) :
    ∃ j, j < (m.headD []).length ∧ x = m.map (fun r => r.getD j d) := by
  simp only [transpose2, List.mem_map, List.mem_range] at hx
  obtain ⟨j, hj, rfl⟩ := hx
  exact ⟨j, hj, rfl⟩

lemma addT3_rect {B T S : ℕ} {x y : T3}
    (hx : Rect3 x B T S) (hy : Rect3 y B T S) : Rect3 (addT3 x y) B T S := by
  refine ⟨by simp [addT3, hx.1, hy.1], ?_⟩
  intro A hA
  obtain ⟨A1, hA1, A2, hA2, rfl⟩ := mem_zipWith hA
  refine ⟨by simp [(hx.2 A1 hA1).1, (hy.2 A2 hA2).1], ?_⟩
  intro r hr
  obtain ⟨r1, hr1, r2, hr2, rfl⟩ := mem_zipWith hr
  simp [List.length_zipWith, (hx.2 A1 hA1).2 r1 hr1, (hy.2 A2 hA2).2 r2 hr2]

lemma foldl_addT3_rect {B T S : ℕ} {x : T3} {xs : List T3}
    (hx : Rect3 x B T S) (hxs : ∀ y ∈ xs, Rect3 y B T S) :
    Rect3 (xs.foldl addT3 x) B T S := by
  induction xs generalizing x with
  | nil => exact hx
  | cons y ys ih =>
    exact ih (addT3_rect hx (hxs y (by simp))) (fun z hz => hxs z (by simp [hz]))

lemma smulT3_rect {B T S : ℕ} {x : T3} (c : ℚ) (hx : Rect3 x B T S) :
    Rect3 (smulT3 c x) B T S := by
  refine ⟨by simp [smulT3, hx.1], ?_⟩
  intro A hA
  simp only [smulT3, List.mem_map] at hA
  obtain ⟨A0, hA0, rfl⟩ := hA
  refine ⟨by simp [(hx.2 A0 hA0).1], ?_⟩
  intro r hr
  simp only [List.mem_map] at hr
  obtain ⟨r0, hr0, rfl⟩ := hr
  simp [(hx.2 A0 hA0).2 r0 hr0]

lemma meanDim0_rect {H B T S : ℕ} {w : T4} (hw : w.length = H)
    (hmem : ∀ x ∈ w, Rect3 x B T S) (hH : 0 < H) :
    Rect3 (meanDim0 w) B T S := by
  cases w with
  | nil => simp at hw; omega
  | cons x xs =>
    exact smulT3_rect _ (foldl_addT3_rect (hmem x (by simp))
      (fun z hz => hmem z (by simp [hz])))

lemma mkRetWeightsShape (B H T S : ℕ) (hB : 0 < B) (hH : 0 < H)
    (probs : T3) (nhw : Bool)
    (hlen : probs.length = B * H)
    (hrect : ∀ A ∈ probs, A.length = T ∧ ∀ row ∈ A, row.length = S) :
    (nhw = true →
      mkRetWeights B H nhw probs = .perHead (transpose2 (chunkN B H probs) []) ∧
      Rect3 (transpose2 (chunkN B H probs) ([] : T2)) H B T ∧
      ∀ x ∈ transpose2 (chunkN B H probs) ([] : T2), ∀ A ∈ x, ∀ row ∈ A,
        row.length = S)
  ∧ (nhw = false →
      mkRetWeights B H nhw probs =
        .averaged (meanDim0 (transpose2 (chunkN B H probs) [])) ∧
      Rect3 (meanDim0 (transpose2 (chunkN B H probs) ([] : T2))) B T S) := by
  have hBH : B * H ≤ probs.length := le_of_eq hlen.symm
  have hhead : ((chunkN B H probs).headD []).length = H := headD_chunkN_length hB hBH
  have hxmem : ∀ x ∈ transpose2 (chunkN B H probs) ([] : T2),
      x.length = B ∧ ∀ A ∈ x, A.length = T ∧ ∀ row ∈ A, row.length = S := by
    intro x hx
    obtain ⟨j, hj, rfl⟩ := mem_transpose2 hx
    rw [hhead] at hj
    refine ⟨by simp [chunkN_length], ?_⟩
    intro A hA
    simp only [List.mem_map] at hA
    obtain ⟨c, hc, rfl⟩ := hA
    have hclen : c.length = H := mem_chunkN_length hBH hc
    have hAmem : c.getD j [] ∈ c := by
      rw [List.getD_eq_getElem c [] (by omega)]
      exact List.getElem_mem _
    exact hrect _ (mem_chunkN hc _ hAmem)
  constructor
  · rintro rfl
    refine ⟨rfl, ⟨by rw [transpose2_length, hhead], fun x hx => ⟨(hxmem x hx).1,
      fun A hA => ((hxmem x hx).2 A hA).1⟩⟩, fun x hx A hA row hrow =>
        ((hxmem x hx).2 A hA).2 row hrow⟩
  · rintro rfl
    refine ⟨rfl, ?_⟩
    apply meanDim0_rect _ _ hH
    · rw [transpose2_length, hhead]
    · exact fun x hx => hxmem x hx




lemma length_applyKeyPaddingMask {B H : ℕ} {x : ST3} {m : KPMask}
    (hx : x.length = B * H) (hm : m.length = B) :
    (applyKeyPaddingMask B H x m).length = B * H := by
  unfold applyKeyPaddingMask
  induction B generalizing x m with
  | zero =>
    rw [Nat.zero_mul] at hx ⊢
    simp [chunkN]
  | succ B ih =>
    rw [Nat.succ_mul] at hx ⊢
    cases m with
    | nil => simp at hm
    | cons mr ms =>
      simp only [chunkN, List.zipWith_cons_cons, List.flatten_cons, List.length_append,
        List.length_map, List.length_take]
      rw [ih (by rw [List.length_drop]; omega) (by simpa using hm)]
      omega

lemma length_maskScores {B H : ℕ} (x : T3) (am : Option AMask) (kpm : Option KPMask)
    (hkpm : ∀ m, kpm = some m → m.length = B) (hx : x.length = B * H) :
    (maskScores B H x am kpm).length = B * H := by
  have hinner : (match am with
      | none => injectScores x
      | some mask => applyAttnMask x mask).length = B * H := by
    cases am <;> simp [injectScores, applyAttnMask, hx]
  cases kpm with
  | none => simpa [maskScores] using hinner
  | some m =>
    simp only [maskScores]
    exact length_applyKeyPaddingMask hinner (hkpm m rfl)

lemma weightsViaMk (M : MHA) (Eexp dp : ℚ → ℚ) (query : T3)
    (key value : Option T3) (kpm : Option KPMask) (st : IncrementalState)
    (skv nhw : Bool) (am : Option AMask) (r : FwdResult)
    (hfwd : forward M Eexp dp query key value kpm (some st) true skv am false nhw
      = some r) :
    ∃ masked : ST3, masked.length = size1 query * M.num_heads ∧
      r.returnedWeights =
        some (mkRetWeights (size1 query) M.num_heads nhw
          (softmaxLast Eexp masked)) := by
  unfold forward at hfwd
  rcases Option.bind_eq_some.mp hfwd with ⟨sl, hsl, hfwd⟩
  simp only [Option.map_some', Option.some_bind, Bool.true_or,
    applySparseMask] at hfwd
  rcases Option.bind_eq_some.mp hfwd with ⟨⟨key1, value1⟩, hkv, hfwd⟩
  rcases Option.bind_eq_some.mp hfwd with ⟨⟨q, k, v⟩, hqkv, hfwd⟩
  rcases Option.bind_eq_some.mp hfwd with ⟨⟨k1, v1, am1, kpm1⟩, hb, hfwd⟩
  rcases Option.bind_eq_some.mp hfwd with ⟨⟨k2, v2, kpm2, sl2, ns2⟩, hcache, hfwd⟩
  rcases Option.bind_eq_some.mp hfwd with ⟨u1, hk2, hfwd⟩
  rcases Option.bind_eq_some.mp hfwd with ⟨u2, hsz1, hfwd⟩
  rcases Option.bind_eq_some.mp hfwd with ⟨u3, hkpmchk, hfwd⟩
  rcases Option.bind_eq_some.mp hfwd with ⟨⟨k3, v3, sl3, am3, kpm3⟩, hza, hfwd⟩
  rcases Option.bind_eq_some.mp hfwd with ⟨u4, hsz3, hfwd⟩
  rw [if_neg (by simp)] at hfwd
  rcases Option.bind_eq_some.mp hfwd with ⟨⟨attn, w⟩, hout, hfwd⟩
  injection hfwd with h
  subst h
  dsimp only at hkv hqkv hb hcache hk2 hsz1 hkpmchk hza hsz3 hout
  simp only [assertB, Option.ite_none_right_eq_some] at hsz3
  obtain ⟨hsz, _⟩ := hsz3
  rw [beq_iff_eq] at hsz
  have hslen : (bmm3 (headSplit M.num_heads M.head_dim (smulT3 M.scaling q))
      (transpose12 k3)).length = size1 query * M.num_heads := by
    have := congrArg Prod.fst hsz
    simpa [size3] using this
  have hkpm3 : ∀ m, kpm3 = some m → m.length = size1 query := by
    intro m3 hm3
    cases hkpm2 : kpm2 with
    | none =>
      rw [hkpm2] at hza
      cases hzat : M.add_zero_attn <;>
        simp only [zeroAttnStage, hzat, assertB, Option.map_none', Option.pure_def,
          Bool.false_eq_true, if_false, eq_self_iff_true, if_true] at hza
      · simp only [Option.some.injEq, Prod.mk.injEq] at hza
        rcases hza with ⟨_, _, _, _, hk3⟩
        rw [← hk3] at hm3
        cases hm3
      · rcases Option.bind_eq_some.mp hza with ⟨uv, hv2, hza⟩
        simp only [Option.some.injEq, Prod.mk.injEq] at hza
        rcases hza with ⟨_, _, _, _, hk3⟩
        rw [← hk3] at hm3
        cases hm3
    | some m =>
      rw [hkpm2] at hkpmchk hza
      simp only [checkKpmSizes, assertB] at hkpmchk
      rcases Option.bind_eq_some.mp hkpmchk with ⟨uc, hck1, _⟩
      simp only [Option.ite_none_right_eq_some] at hck1
      have hmlen : m.length = size1 query := beq_iff_eq.mp hck1.1
      cases hzat : M.add_zero_attn <;>
        simp only [zeroAttnStage, hzat, assertB, Option.map_some', Option.pure_def,
          Bool.false_eq_true, if_false, eq_self_iff_true, if_true] at hza
      · simp only [Option.some.injEq, Prod.mk.injEq] at hza
        rcases hza with ⟨_, _, _, _, hk3⟩
        rw [← hk3] at hm3
        injection hm3 with hm3
        rw [← hm3, hmlen]
      · rcases Option.bind_eq_some.mp hza with ⟨uv, hv2, hza⟩
        simp only [Option.some.injEq, Prod.mk.injEq] at hza
        rcases hza with ⟨_, _, _, _, hk3⟩
        rw [← hk3] at hm3
        injection hm3 with hm3
        rw [← hm3]
        simp [hmlen]
  have hw : w = some (mkRetWeights (size1 query) M.num_heads nhw
      (softmaxLast Eexp (maskScores (size1 query) M.num_heads
        (bmm3 (headSplit M.num_heads M.head_dim (smulT3 M.scaling q))
          (transpose12 k3)) am3 kpm3))) := by
    unfold attnOutputStage at hout
    rcases Option.bind_eq_some.mp hout with ⟨w1, hv3, hout⟩
    rcases Option.bind_eq_some.mp hout with ⟨w2, hsz4, hout⟩
    injection hout with h2
    simp only [Prod.mk.injEq] at h2
    rw [← h2.2]
    simp
  refine ⟨maskScores (size1 query) M.num_heads
    (bmm3 (headSplit M.num_heads M.head_dim (smulT3 M.scaling q))
      (transpose12 k3)) am3 kpm3,
    length_maskScores _ _ _ hkpm3 hslen, ?_⟩
  simpa [FwdResult.returnedWeights] using hw


/-- Counterexample to C6 as stated: on a 2-head module with batch size 1,
a forward call requesting per-head weights returns them with leading
axis `num_heads = 2`, not `batch = 1`: line 480 transposes the
`(bsz, num_heads, tgt_len, src_len)` view into
`(num_heads, bsz, tgt_len, src_len)` before returning. -/
theorem weights_shape_counterexample :
    forward ⟨2, 1, true, false, [[1, 0], [0, 1]], [0, 0], [[1, 0], [0, 1]], [0, 0],
        [[1, 0], [0, 1]], [0, 0], [[1, 0], [0, 1]], [0, 0], 1, none, none, false⟩
        (fun _ => 1) id [[[1, 2]]] none none none (some none)
        true false none false true
      = some ⟨.normal [[[1, 2]]] (some (.perHead [[[[1]]], [[[1]]]])),
          some (some ⟨some [[[[1]], [[2]]]], some [[[[1]], [[2]]]], none⟩)⟩ ∧
    ([[[[(1 : ℚ)]]], [[[1]]]] : T4).length = 2 ∧ size1 [[[(1 : ℚ), 2]]] = 1 ∧
    (2 : ℕ) ≠ 1 := by
  refine ⟨?_, rfl, rfl, by decide⟩
  simp [forward, checkDims, staticClearKV, projectQKV, applyBiasKV, cacheUpdate,
    checkKpmSizes, zeroAttnStage, attnOutputStage, assertB, getInputBuffer,
    getIncrementalState, emptyBuffer, setInputBuffer, setIncrementalState,
    MHA.embed_dim, size1, size3, linearSeq, linearPos, linearVec, dotQ, smulT3,
    headSplit, splitHeadsPos, chunkN, transpose2, bmm3, matMul, transpose12,
    injectScores, maskScores, softmaxLast, softmaxRow, expw, applyDropout,
    mergeHeads, mergeHeadsPos, applySparseMask, mkRetWeights, meanDim0,
    appendPrevKeyPaddingMask, List.range_succ]

/-- C6 (amended): when attention weights are requested on the non-fused
path, the pre-dropout softmax probabilities — whose leading size is
`bsz * num_heads` — are reported through the reshape/transpose of lines
476–484: viewed as `(bsz, num_heads, tgt_len, src_len)` and then
transposed, so per-head weights are returned in the shape
`(num_heads, bsz, tgt_len, src_len)` (not `(bsz, num_heads, ...)` as the
claim states — see the counterexample); when per-head weights are not
requested the returned weights are the average over the head axis, of
shape `(bsz, tgt_len, src_len)`.  The first conjunct ties a successful
`forward` call to the reporting operation `mkRetWeights` on the softmax
probabilities; the others give `mkRetWeights`'s output shape for
rectangular probability tensors. -/
theorem weights_reported_transposed
    (M : MHA) (Eexp dp : ℚ → ℚ) (query : T3) (key value : Option T3)
    (kpm : Option KPMask) (st : IncrementalState) (skv nhw : Bool)
    (am : Option AMask) (r : FwdResult) (B H T S : ℕ) (probs : T3)
    (hB : 0 < B) (hH : 0 < H) (hlen : probs.length = B * H)
    (hrect : ∀ A ∈ probs, A.length = T ∧ ∀ row ∈ A, row.length = S)
    (hfwd : forward M Eexp dp query key value kpm (some st) true skv am false nhw
      = some r) :
    (∃ masked : ST3, masked.length = size1 query * M.num_heads ∧
      r.returnedWeights = some (mkRetWeights (size1 query) M.num_heads nhw
        (softmaxLast Eexp masked)))
  ∧ (nhw = true →
      mkRetWeights B H nhw probs = .perHead (transpose2 (chunkN B H probs) []) ∧
      Rect3 (transpose2 (chunkN B H probs) ([] : T2)) H B T ∧
      ∀ x ∈ transpose2 (chunkN B H probs) ([] : T2), ∀ A ∈ x, ∀ row ∈ A,
        row.length = S)
  ∧ (nhw = false →
      mkRetWeights B H nhw probs =
        .averaged (meanDim0 (transpose2 (chunkN B H probs) [])) ∧
      Rect3 (meanDim0 (transpose2 (chunkN B H probs) ([] : T2))) B T S) :=
  ⟨weightsViaMk M Eexp dp query key value kpm st skv nhw am r hfwd,
   (mkRetWeightsShape B H T S hB hH probs nhw hlen hrect).1,
   (mkRetWeightsShape B H T S hB hH probs nhw hlen hrect).2⟩

/-- Witness for C6 (amended), instantiated on a 2-head, batch-1 module:
the successful call reports `mkRetWeights` output, and on `(B, H, T, S) =
(1, 2, 1, 1)` probabilities the per-head branch yields the transposed
`(2, 1, 1, 1)`-shaped weights. -/
theorem weights_reported_transposed_witness :
    (∃ masked : ST3, masked.length = 2 ∧
      FwdResult.returnedWeights
          ⟨.normal [[[1, 2]]] (some (.perHead [[[[1]]], [[[1]]]])),
            some (some ⟨some [[[[1]], [[2]]]], some [[[[1]], [[2]]]], none⟩)⟩
        = some (mkRetWeights 1 2 true (softmaxLast (fun _ => 1) masked)))
  ∧ (true = true →
      mkRetWeights 1 2 true [[[1]], [[1]]] =
        .perHead (transpose2 (chunkN 1 2 [[[1]], [[1]]]) []) ∧
      Rect3 (transpose2 (chunkN 1 2 [[[(1 : ℚ)]], [[1]]]) ([] : T2)) 2 1 1 ∧
      ∀ x ∈ transpose2 (chunkN 1 2 [[[(1 : ℚ)]], [[1]]]) ([] : T2), ∀ A ∈ x,
        ∀ row ∈ A, row.length = 1)
  ∧ (true = false →
      mkRetWeights 1 2 true [[[1]], [[1]]] =
        .averaged (meanDim0 (transpose2 (chunkN 1 2 [[[1]], [[1]]]) [])) ∧
      Rect3 (meanDim0 (transpose2 (chunkN 1 2 [[[(1 : ℚ)]], [[1]]]) ([] : T2)))
        1 1 1) := by
  exact weights_reported_transposed
    ⟨2, 1, true, false, [[1, 0], [0, 1]], [0, 0], [[1, 0], [0, 1]], [0, 0],
      [[1, 0], [0, 1]], [0, 0], [[1, 0], [0, 1]], [0, 0], 1, none, none, false⟩
    (fun _ => 1) id [[[1, 2]]] none none none none false true none
    ⟨.normal [[[1, 2]]] (some (.perHead [[[[1]]], [[[1]]]])),
      some (some ⟨some [[[[1]], [[2]]]], some [[[[1]], [[2]]]], none⟩)⟩
    1 2 1 1 [[[1]], [[1]]] (by decide) (by decide) rfl (by decide)
    (by simp [forward, checkDims, staticClearKV, projectQKV, applyBiasKV,
      cacheUpdate, checkKpmSizes, zeroAttnStage, attnOutputStage, assertB,
      getInputBuffer, getIncrementalState, emptyBuffer, setInputBuffer,
      setIncrementalState, MHA.embed_dim, size1, size3, linearSeq, linearPos,
      linearVec, dotQ, smulT3, headSplit, splitHeadsPos, chunkN, transpose2,
      bmm3, matMul, transpose12, injectScores, maskScores, softmaxLast,
      softmaxRow, expw, applyDropout, mergeHeads, mergeHeadsPos,
      applySparseMask, mkRetWeights, meanDim0, appendPrevKeyPaddingMask,
      List.range_succ])

lemma applyDropout_id (x : T3) : applyDropout id x = x := by
  simp [applyDropout, List.map_id]

lemma flatten_chunkN {k n : ℕ} {l : List α} (h : l.length = k * n) :
    (chunkN k n l).flatten = l := by
  induction k generalizing l with
  | zero =>
    rw [Nat.zero_mul] at h
    rw [List.length_eq_zero] at h
    simp [chunkN, h]
  | succ k ih =>
    rw [Nat.succ_mul] at h
    simp only [chunkN, List.flatten_cons]
    rw [ih (by rw [List.length_drop]; omega), List.take_append_drop]

lemma getElem_transpose2 {m : List (List α)} {d : α} {i : ℕ}
    (hi : i < (transpose2 m d).length) :
    (transpose2 m d)[i] = m.map fun r => r.getD i d := by
  unfold transpose2 at hi ⊢
  simp

lemma getD_transpose2 {m : List (List α)} {d : α} {j : ℕ}
    (hj : j < (m.headD []).length) :
    (transpose2 m d).getD j [] = m.map fun r => r.getD j d := by
  have hj2 : j < (transpose2 m d).length := by rw [transpose2_length]; exact hj
  rw [List.getD_eq_getElem _ _ hj2]
  exact getElem_transpose2 hj2

lemma headD_length_of_rect {m : List (List α)} {a b : ℕ}
    (hm : m.length = a) (hrect : ∀ r ∈ m, r.length = b) (ha : 0 < a) :
    (m.headD []).length = b := by
  cases m with
  | nil => simp at hm; omega
  | cons r rs => simpa using hrect r (by simp)

lemma transpose2_rect {m : List (List α)} {d : α} {a b : ℕ}
    (hm : m.length = a) (hrect : ∀ r ∈ m, r.length = b) (ha : 0 < a) :
    (transpose2 m d).length = b ∧ ∀ x ∈ transpose2 m d, x.length = a := by
  constructor
  · rw [transpose2_length]
    exact headD_length_of_rect hm hrect ha
  · intro x hx
    obtain ⟨j, hj, rfl⟩ := mem_transpose2 hx
    simp [hm]

lemma transpose2_transpose2 {m : List (List α)} {d : α} {b : ℕ}
    (hrect : ∀ r ∈ m, r.length = b) (hb : 0 < b) :
    transpose2 (transpose2 m d) d = m := by
  cases hm : m with
  | nil => rfl
  | cons r rs =>
    rw [← hm]
    have hmpos : 0 < m.length := by rw [hm]; simp
    have h1 : (transpose2 m d).length = b :=
      (transpose2_rect rfl hrect hmpos).1
    have h2 : ∀ x ∈ transpose2 m d, x.length = m.length :=
      (transpose2_rect rfl hrect hmpos).2
    apply List.ext_getElem
    · rw [transpose2_length]
      rw [headD_length_of_rect h1 h2 (by omega)]
    · intro i hi1 hi2
      rw [getElem_transpose2 hi1]
      apply List.ext_getElem
      · rw [List.length_map, h1, hrect _ (List.getElem_mem hi2)]
      · intro j hj1 hj2
        rw [List.getElem_map]
        have hjT : j < (transpose2 m d).length := by
          rw [List.length_map] at hj1
          exact hj1
        rw [getElem_transpose2 hjT,
          List.getD_eq_getElem _ _ (by rw [List.length_map]; exact hi2),
          List.getElem_map, List.getD_eq_getElem _ _ hj2]

lemma dotQ_append {a b c e : T1} (h : a.length = c.length) :
    dotQ (a ++ b) (c ++ e) = dotQ a c + dotQ b e := by
  unfold dotQ
  rw [List.zipWith_append _ _ _ _ _ h, List.sum_append]

lemma dotQ_replicate_zero (k : ℕ) (c : T1) :
    dotQ (List.replicate k 0) c = 0 := by
  unfold dotQ
  induction k generalizing c with
  | zero => simp
  | succ k ih =>
    cases c with
    | nil => simp
    | cons x xs => simp [List.replicate_succ, ih xs]

lemma zipWith_take_length {f : α → β → γ} (p : List α) (c : List β) :
    List.zipWith f p c = List.zipWith f p (c.take p.length) := by
  induction p generalizing c with
  | nil => simp
  | cons a as ih =>
    cases c with
    | nil => simp
    | cons b bs => simp [List.zipWith_cons_cons, ih bs]

lemma dotQ_length_truncate (p c : T1) :
    dotQ p c = dotQ p (c.take p.length) := by
  unfold dotQ
  rw [← zipWith_take_length]

lemma map_getD_take {l : List (List α)} {t j : ℕ} {d : α} :
    (l.take t).map (fun r => r.getD j d) = (l.map fun r => r.getD j d).take t := by
  rw [List.map_take]

lemma take_succ_getElem {l : List α} {t : ℕ} (h : t < l.length) :
    l.take (t + 1) = l.take t ++ [l[t]] := by
  rw [List.take_succ]
  simp [List.getElem?_eq_getElem h]

/-- The triangular causal additive mask over `n` positions: target `t`
may attend to source `s ≤ t`; later sources are additively `-inf` (the
mask a decoder passes for full-sequence self-attention). -/
def causalMask (n : ℕ) : AMask :=
  (List.range n).map fun t => (List.range n).map fun s =>
    if s ≤ t then SVal.val 0 else SVal.ninf

/-- Key/value projection followed by the head split, as a self-attention
forward call computes it (lines 224–242 and 280–284). -/
def projSplit (M : MHA) (W : T2) (b : T1) (x : T3) : T3 :=
  headSplit M.num_heads M.head_dim (linearSeq W b x)

/-- Query projection, scaling and head split (lines 224–243, 280). -/
def qProjSplit (M : MHA) (x : T3) : T3 :=
  headSplit M.num_heads M.head_dim
    (smulT3 M.scaling (linearSeq M.q_proj_weight M.q_proj_bias x))

/-- The value pipeline of a successful self-attention forward call after
the head split, with no key-padding mask: scores, additive masking,
softmax, dropout, value aggregation, head merge, output projection
(lines 387–475). -/
def selfAttnCore (M : MHA) (Eexp dp : ℚ → ℚ) (B : ℕ) (q k v : T3)
    (am : Option AMask) : T3 :=
  let scores := bmm3 q (transpose12 k)
  let masked := maskScores B M.num_heads scores am none
  let probs := softmaxLast Eexp masked
  let attn := bmm3 (applyDropout dp probs) v
  linearSeq M.out_proj_weight M.out_proj_bias (mergeHeads B M.num_heads attn)

/-- One incremental decoding step (spec §8): feed one query position with
the running cache; no masks, `static_kv = False`, no weight reporting. -/
def decodeStep (M : MHA) (Eexp dp : ℚ → ℚ) (st : IncrementalState) (x : T2) :
    Option (T3 × IncrementalState) :=
  match forward M Eexp dp [x] none none none (some st) false false none
      false false with
  | some ⟨.normal out _, some st'⟩ => some (out, st')
  | _ => none

/-- Steps 1..N of incremental decoding: one forward call per position,
threading the cache, concatenating the per-step outputs along time. -/
def decodeLoop (M : MHA) (Eexp dp : ℚ → ℚ) :
    IncrementalState → List T2 → Option T3
  | _, [] => some []
  | st, x :: xs => do
      let (out, st') ← decodeStep M Eexp dp st x
      let rest ← decodeLoop M Eexp dp st' xs
      pure (out ++ rest)

/-- The output of one non-incremental (static) forward call over the
full sequence. -/
def staticForward (M : MHA) (Eexp dp : ℚ → ℚ) (query : T3)
    (am : Option AMask) : Option T3 :=
  match forward M Eexp dp query none none none none false false am
      false false with
  | some ⟨.normal out _, _⟩ => some out
  | _ => none

lemma length_linearVec {W : T2} {b : T1} {E : ℕ} (x : T1)
    (hW : W.length = E) (hb : b.length = E) : (linearVec W b x).length = E := by
  simp [linearVec, hW, hb]

lemma linearSeq_rect {W : T2} {b : T1} {x : T3} {N B c E : ℕ}
    (hx : Rect3 x N B c) (hW : W.length = E) (hb : b.length = E) :
    Rect3 (linearSeq W b x) N B E := by
  refine ⟨by simp [linearSeq, hx.1], ?_⟩
  intro A hA
  simp only [linearSeq, List.mem_map] at hA
  obtain ⟨pos, hpos, rfl⟩ := hA
  refine ⟨by simp [linearPos, (hx.2 pos hpos).1], ?_⟩
  intro r hr
  simp only [linearPos, List.mem_map] at hr
  obtain ⟨v0, _, rfl⟩ := hr
  exact length_linearVec v0 hW hb

lemma length_splitHeadsPos {H D B : ℕ} {pos : T2}
    (hB : pos.length = B) (hrect : ∀ r ∈ pos, r.length = H * D) :
    (splitHeadsPos H D pos).length = B * H := by
  unfold splitHeadsPos
  rw [List.length_flatten, List.map_map]
  have he : pos.map (List.length ∘ chunkN H D) = pos.map fun _ => H := by
    apply List.map_congr_left
    intro r _
    simp [chunkN_length]
  rw [he, List.map_const', List.sum_replicate, smul_eq_mul, hB, Nat.mul_comm]

lemma mem_splitHeadsPos_length {H D : ℕ} {pos : T2}
    (hrect : ∀ r ∈ pos, r.length = H * D) :
    ∀ c ∈ splitHeadsPos H D pos, c.length = D := by
  intro c hc
  unfold splitHeadsPos at hc
  rw [List.mem_flatten] at hc
  obtain ⟨l, hl, hcl⟩ := hc
  simp only [List.mem_map] at hl
  obtain ⟨r, hr, rfl⟩ := hl
  exact mem_chunkN_length (by rw [hrect r hr]) hcl

lemma headSplit_rect {H D N B : ℕ} {x : T3}
    (hx : Rect3 x N B (H * D)) (hN : 0 < N) :
    Rect3 (headSplit H D x) (B * H) N D := by
  unfold headSplit
  have hm1 : (x.map (splitHeadsPos H D)).length = N := by simp [hx.1]
  have hm2 : ∀ r ∈ x.map (splitHeadsPos H D), r.length = B * H := by
    intro r hr
    simp only [List.mem_map] at hr
    obtain ⟨pos, hpos, rfl⟩ := hr
    exact length_splitHeadsPos (hx.2 pos hpos).1 (hx.2 pos hpos).2
  refine ⟨(transpose2_rect hm1 hm2 hN).1, ?_⟩
  intro A hA
  obtain ⟨j, hj, rfl⟩ := mem_transpose2 hA
  refine ⟨by simp [hx.1], ?_⟩
  intro r hr
  rw [List.map_map] at hr
  simp only [List.mem_map, Function.comp] at hr
  obtain ⟨pos, hpos, rfl⟩ := hr
  have hlen : (splitHeadsPos H D pos).length = B * H :=
    length_splitHeadsPos (hx.2 pos hpos).1 (hx.2 pos hpos).2
  have hjlt : j < (splitHeadsPos H D pos).length := by
    rw [hlen]
    rwa [headD_length_of_rect hm1 hm2 hN] at hj
  rw [List.getD_eq_getElem _ _ hjlt]
  exact mem_splitHeadsPos_length (hx.2 pos hpos).2 _ (List.getElem_mem hjlt)

lemma map_take_rect {x : T3} {a b c t : ℕ} (hx : Rect3 x a b c) (ht : t ≤ b) :
    Rect3 (x.map fun r => r.take t) a t c := by
  refine ⟨by simp [hx.1], ?_⟩
  intro A hA
  simp only [List.mem_map] at hA
  obtain ⟨A0, hA0, rfl⟩ := hA
  constructor
  · rw [List.length_take, (hx.2 A0 hA0).1]
    omega
  · intro r hr
    exact (hx.2 A0 hA0).2 r (List.take_subset _ _ hr)

lemma catDim1_rect {a b : T3} {n ta tb c : ℕ}
    (ha : Rect3 a n ta c) (hb : Rect3 b n tb c) :
    Rect3 (catDim1 a b) n (ta + tb) c := by
  refine ⟨by simp [catDim1, ha.1, hb.1], ?_⟩
  intro A hA
  obtain ⟨A1, hA1, A2, hA2, rfl⟩ := mem_zipWith hA
  constructor
  · rw [List.length_append, (ha.2 A1 hA1).1, (hb.2 A2 hA2).1]
  · intro r hr
    rcases List.mem_append.mp hr with h | h
    · exact (ha.2 A1 hA1).2 r h
    · exact (hb.2 A2 hA2).2 r h

lemma headD_mem {x : List α} {d : α} (h : 0 < x.length) : x.headD d ∈ x := by
  cases x with
  | nil => simp at h
  | cons a l => simp

lemma size1_of_rect {x : List (List α)} {a b : ℕ}
    (h1 : x.length = a) (h2 : ∀ r ∈ x, r.length = b) (ha : 0 < a) :
    size1 x = b := headD_length_of_rect h1 h2 ha

lemma size3_of_rect {x : List (List (List α))} {a b c : ℕ}
    (h : Rect3 x a b c) (ha : 0 < a) (hb : 0 < b) : size3 x = (a, b, c) := by
  unfold size3
  have h1 : (x.headD []).length = b :=
    headD_length_of_rect h.1 (fun A hA => (h.2 A hA).1) ha
  have hx0 : x.headD [] ∈ x := headD_mem (by rw [h.1]; exact ha)
  have h2 : ((x.headD []).headD []).length = c :=
    headD_length_of_rect h1 ((h.2 _ hx0).2) hb
  rw [h.1, h1, h2]

lemma zipWith_congr_mem {f g : α → β → γ} {a : List α} {b : List β}
    (h : ∀ x ∈ a, ∀ y ∈ b, f x y = g x y) :
    List.zipWith f a b = List.zipWith g a b := by
  induction a generalizing b with
  | nil => simp
  | cons x xs ih =>
    cases b with
    | nil => simp
    | cons y ys =>
      simp only [List.zipWith_cons_cons]
      rw [h x (by simp) y (by simp),
        ih (fun x' hx' y' hy' => h x' (by simp [hx']) y' (by simp [hy']))]

lemma matMul_transpose {A B : T2} {d : ℕ}
    (hB2 : ∀ r ∈ B, r.length = d) (hd : 0 < d) :
    matMul A (transpose2 B 0) = A.map fun r => B.map fun br => dotQ r br := by
  unfold matMul
  rw [transpose2_transpose2 hB2 hd]

lemma bmm3_transpose12 {q k : T3} {d : ℕ}
    (hk : ∀ kb ∈ k, ∀ r ∈ kb, r.length = d) (hd : 0 < d) :
    bmm3 q (transpose12 k) =
      List.zipWith (fun qb kb => qb.map fun r => kb.map fun br => dotQ r br) q k := by
  unfold bmm3 transpose12
  rw [List.zipWith_map_right]
  exact zipWith_congr_mem fun qb _ kb hkb => matMul_transpose (hk kb hkb) hd

lemma scores_rect {q k : T3} {n t s d : ℕ}
    (hq : Rect3 q n t d) (hk : Rect3 k n s d) (hd : 0 < d) :
    Rect3 (bmm3 q (transpose12 k)) n t s := by
  rw [bmm3_transpose12 (fun kb hkb => (hk.2 kb hkb).2) hd]
  refine ⟨by simp [List.length_zipWith, hq.1, hk.1], ?_⟩
  intro A hA
  obtain ⟨qb, hqb, kb, hkb, rfl⟩ := mem_zipWith hA
  refine ⟨by simp [(hq.2 qb hqb).1], ?_⟩
  intro r hr
  simp only [List.mem_map] at hr
  obtain ⟨qr, _, rfl⟩ := hr
  simp [(hk.2 kb hkb).1]

lemma bmm3_plain_rect {p v : T3} {n t s d : ℕ}
    (hp : Rect3 p n t s) (hv : Rect3 v n s d) (hs : 0 < s) :
    Rect3 (bmm3 p v) n t d := by
  refine ⟨by simp [bmm3, List.length_zipWith, hp.1, hv.1], ?_⟩
  intro A hA
  obtain ⟨pb, hpb, vb, hvb, rfl⟩ := mem_zipWith hA
  refine ⟨by simp [matMul, (hp.2 pb hpb).1], ?_⟩
  intro r hr
  simp only [matMul, List.mem_map] at hr
  obtain ⟨pr, _, rfl⟩ := hr
  rw [List.length_map, transpose2_length]
  exact headD_length_of_rect (hv.2 vb hvb).1 (hv.2 vb hvb).2 hs

lemma injectScores_rect {x : T3} {a b c : ℕ} (hx : Rect3 x a b c) :
    Rect3 (injectScores x) a b c := by
  refine ⟨by simp [injectScores, hx.1], ?_⟩
  intro A hA
  simp only [injectScores, List.mem_map] at hA
  obtain ⟨A0, hA0, rfl⟩ := hA
  refine ⟨by simp [(hx.2 A0 hA0).1], ?_⟩
  intro r hr
  simp only [List.mem_map] at hr
  obtain ⟨r0, hr0, rfl⟩ := hr
  simp [(hx.2 A0 hA0).2 r0 hr0]

lemma applyAttnMask_rect {x : T3} {mask : AMask} {a b c : ℕ}
    (hx : Rect3 x a b c)
    (hm1 : mask.length = b) (hm2 : ∀ r ∈ mask, r.length = c) :
    Rect3 (applyAttnMask x mask) a b c := by
  refine ⟨by simp [applyAttnMask, hx.1], ?_⟩
  intro A hA
  simp only [applyAttnMask, List.mem_map] at hA
  obtain ⟨A0, hA0, rfl⟩ := hA
  refine ⟨by simp [List.length_zipWith, (hx.2 A0 hA0).1, hm1], ?_⟩
  intro r hr
  obtain ⟨r0, hr0, mr, hmr, rfl⟩ := mem_zipWith hr
  simp [List.length_zipWith, (hx.2 A0 hA0).2 r0 hr0, hm2 mr hmr]

lemma maskScores_nokpm_rect {B H : ℕ} {x : T3} {am : Option AMask} {a b c : ℕ}
    (hx : Rect3 x a b c)
    (ham : ∀ mask, am = some mask → mask.length = b ∧ ∀ r ∈ mask, r.length = c) :
    Rect3 (maskScores B H x am none) a b c := by
  cases am with
  | none => exact injectScores_rect hx
  | some mask =>
    exact applyAttnMask_rect hx (ham mask rfl).1 (ham mask rfl).2

lemma softmaxLast_rect {Eexp : ℚ → ℚ} {x : ST3} {a b c : ℕ}
    (hx : Rect3 x a b c) : Rect3 (softmaxLast Eexp x) a b c := by
  refine ⟨by simp [softmaxLast, hx.1], ?_⟩
  intro A hA
  simp only [softmaxLast, List.mem_map] at hA
  obtain ⟨A0, hA0, rfl⟩ := hA
  refine ⟨by simp [(hx.2 A0 hA0).1], ?_⟩
  intro r hr
  simp only [List.mem_map] at hr
  obtain ⟨r0, hr0, rfl⟩ := hr
  simp [softmaxRow, (hx.2 A0 hA0).2 r0 hr0]

lemma applyDropout_rect {dp : ℚ → ℚ} {x : T3} {a b c : ℕ}
    (hx : Rect3 x a b c) : Rect3 (applyDropout dp x) a b c := by
  refine ⟨by simp [applyDropout, hx.1], ?_⟩
  intro A hA
  simp only [applyDropout, List.mem_map] at hA
  obtain ⟨A0, hA0, rfl⟩ := hA
  refine ⟨by simp [(hx.2 A0 hA0).1], ?_⟩
  intro r hr
  simp only [List.mem_map] at hr
  obtain ⟨r0, hr0, rfl⟩ := hr
  simp [(hx.2 A0 hA0).2 r0 hr0]

lemma staticForward_eval (M : MHA) (Eexp dp : ℚ → ℚ) (xs : T3)
    (am : Option AMask) (B : ℕ)
    (hself : M.self_attention = true) (hbk : M.bias_k = none)
    (hza : M.add_zero_attn = false)
    (hx : Rect3 xs xs.length B (M.num_heads * M.head_dim))
    (hN : 0 < xs.length) (hB : 0 < B) (hH : 0 < M.num_heads)
    (hD : 0 < M.head_dim)
    (hWq : M.q_proj_weight.length = M.num_heads * M.head_dim)
    (hbq : M.q_proj_bias.length = M.num_heads * M.head_dim)
    (hWk : M.k_proj_weight.length = M.num_heads * M.head_dim)
    (hbk2 : M.k_proj_bias.length = M.num_heads * M.head_dim)
    (hWv : M.v_proj_weight.length = M.num_heads * M.head_dim)
    (hbv : M.v_proj_bias.length = M.num_heads * M.head_dim)
    (ham : ∀ mask, am = some mask →
      mask.length = xs.length ∧ ∀ r ∈ mask, r.length = xs.length) :
    staticForward M Eexp dp xs am =
      some (selfAttnCore M Eexp dp B (qProjSplit M xs)
        (projSplit M M.k_proj_weight M.k_proj_bias xs)
        (projSplit M M.v_proj_weight M.v_proj_bias xs) am) := by
  have hBH : 0 < B * M.num_heads := Nat.mul_pos hB hH
  have hsize1xs : size1 xs = B :=
    size1_of_rect hx.1 (fun r hr => (hx.2 r hr).1) hN
  have hembed : ((xs.headD []).headD []).length = M.num_heads * M.head_dim := by
    have h0 : xs.headD [] ∈ xs := headD_mem hN
    exact headD_length_of_rect (hx.2 _ h0).1 (hx.2 _ h0).2 hB
  have hq3 : Rect3 (headSplit M.num_heads M.head_dim
      (smulT3 M.scaling (linearSeq M.q_proj_weight M.q_proj_bias xs)))
      (B * M.num_heads) xs.length M.head_dim :=
    headSplit_rect (smulT3_rect _ (linearSeq_rect hx hWq hbq)) hN
  have hk3 : Rect3 (headSplit M.num_heads M.head_dim
      (linearSeq M.k_proj_weight M.k_proj_bias xs))
      (B * M.num_heads) xs.length M.head_dim :=
    headSplit_rect (linearSeq_rect hx hWk hbk2) hN
  have hv3 : Rect3 (headSplit M.num_heads M.head_dim
      (linearSeq M.v_proj_weight M.v_proj_bias xs))
      (B * M.num_heads) xs.length M.head_dim :=
    headSplit_rect (linearSeq_rect hx hWv hbv) hN
  have hsc : Rect3 (bmm3 (headSplit M.num_heads M.head_dim
      (smulT3 M.scaling (linearSeq M.q_proj_weight M.q_proj_bias xs)))
      (transpose12 (headSplit M.num_heads M.head_dim
        (linearSeq M.k_proj_weight M.k_proj_bias xs))))
      (B * M.num_heads) xs.length xs.length := scores_rect hq3 hk3 hD
  have hmask : Rect3 (maskScores (size1 xs) M.num_heads
      (bmm3 (headSplit M.num_heads M.head_dim
        (smulT3 M.scaling (linearSeq M.q_proj_weight M.q_proj_bias xs)))
        (transpose12 (headSplit M.num_heads M.head_dim
          (linearSeq M.k_proj_weight M.k_proj_bias xs)))) am none)
      (B * M.num_heads) xs.length xs.length :=
    maskScores_nokpm_rect hsc ham
  have hattn : Rect3 (bmm3 (applyDropout dp (softmaxLast Eexp
      (maskScores (size1 xs) M.num_heads
        (bmm3 (headSplit M.num_heads M.head_dim
          (smulT3 M.scaling (linearSeq M.q_proj_weight M.q_proj_bias xs)))
          (transpose12 (headSplit M.num_heads M.head_dim
            (linearSeq M.k_proj_weight M.k_proj_bias xs)))) am none)))
      (headSplit M.num_heads M.head_dim
        (linearSeq M.v_proj_weight M.v_proj_bias xs)))
      (B * M.num_heads) xs.length M.head_dim :=
    bmm3_plain_rect (applyDropout_rect (softmaxLast_rect hmask)) hv3 hN
  have hsize1k : size1 (headSplit M.num_heads M.head_dim
      (linearSeq M.k_proj_weight M.k_proj_bias xs)) = xs.length :=
    size1_of_rect hk3.1 (fun r hr => (hk3.2 r hr).1) hBH
  have hbeq1 : (size1 (headSplit M.num_heads M.head_dim
      (linearSeq M.k_proj_weight M.k_proj_bias xs)) == xs.length) = true := by
    rw [hsize1k]
    exact beq_self_eq_true _
  have hbeq2 : (size3 (bmm3 (headSplit M.num_heads M.head_dim
      (smulT3 M.scaling (linearSeq M.q_proj_weight M.q_proj_bias xs)))
      (transpose12 (headSplit M.num_heads M.head_dim
        (linearSeq M.k_proj_weight M.k_proj_bias xs))))
      == (B * M.num_heads, xs.length, xs.length)) = true := by
    rw [size3_of_rect hsc hBH hN]
    exact beq_self_eq_true _
  have hbeq3 : (size3 (bmm3 (applyDropout dp (softmaxLast Eexp
      (maskScores B M.num_heads
        (bmm3 (headSplit M.num_heads M.head_dim
          (smulT3 M.scaling (linearSeq M.q_proj_weight M.q_proj_bias xs)))
          (transpose12 (headSplit M.num_heads M.head_dim
            (linearSeq M.k_proj_weight M.k_proj_bias xs)))) am none)))
      (headSplit M.num_heads M.head_dim
        (linearSeq M.v_proj_weight M.v_proj_bias xs)))
      == (B * M.num_heads, xs.length, M.head_dim)) = true := by
    rw [size3_of_rect (hsize1xs ▸ hattn) hBH hN]
    exact beq_self_eq_true _
  have hcd : checkDims M xs none none = some xs.length := by
    simp only [checkDims, assertB, MHA.embed_dim, hembed, beq_self_eq_true,
      if_true]
    rfl
  unfold staticForward forward
  rw [hcd]
  simp only [Option.some_bind, Option.map_none', Option.map_some', staticClearKV,
    projectQKV, hself, eq_self_iff_true, if_true, applyBiasKV, hbk,
    Option.pure_def, checkKpmSizes, zeroAttnStage, hza,
    Bool.false_eq_true, if_false, applySparseMask,
    attnOutputStage, Bool.or_false]
  simp only [Option.bind_eq_bind, Option.some_bind]
  simp only [Option.isSome_some, Option.getD_some, if_true, eq_self_iff_true,
    hsize1xs]
  simp only [Option.map_some', Option.getD_some, assertB, Option.isSome_some,
    hbeq1, hbeq2, hbeq3, if_true, eq_self_iff_true, Option.some_bind]
  simp only [selfAttnCore, projSplit, qProjSplit]

lemma cacheUpdate_empty (M : MHA) (bsz : ℕ) (st : IncrementalState)
    (k1 v1 : T3) :
    cacheUpdate M bsz emptyBuffer st false (some k1) (some v1) none 1 =
      some (some k1, some v1, none, 1,
        some (some ⟨some (chunkN bsz M.num_heads k1),
                    some (chunkN bsz M.num_heads v1), none⟩)) := rfl

lemma cacheUpdate_cons (M : MHA) (bsz : ℕ) (st : IncrementalState)
    (kh vh k1 v1 : T3)
    (hkh : kh.length = bsz * M.num_heads)
    (hvh : vh.length = bsz * M.num_heads) :
    cacheUpdate M bsz ⟨some (chunkN bsz M.num_heads kh),
        some (chunkN bsz M.num_heads vh), none⟩ st false
        (some k1) (some v1) none 1 =
      some (some (catDim1 kh k1), some (catDim1 vh v1), none,
        size1 (catDim1 kh k1),
        some (some ⟨some (chunkN bsz M.num_heads (catDim1 kh k1)),
                    some (chunkN bsz M.num_heads (catDim1 vh v1)), none⟩)) := by
  simp only [cacheUpdate, flatten_chunkN hkh, flatten_chunkN hvh]
  rfl

lemma decodeStep_eval (M : MHA) (Eexp dp : ℚ → ℚ) (st : IncrementalState)
    (x : T2) (kc vc : T3) (st' : IncrementalState) (B L : ℕ)
    (hself : M.self_attention = true) (hbk : M.bias_k = none)
    (hza : M.add_zero_attn = false)
    (hxB : x.length = B) (hxrow : ∀ r ∈ x, r.length = M.num_heads * M.head_dim)
    (hB : 0 < B) (hH : 0 < M.num_heads) (hD : 0 < M.head_dim)
    (hWq : M.q_proj_weight.length = M.num_heads * M.head_dim)
    (hbq : M.q_proj_bias.length = M.num_heads * M.head_dim)
    (hkc : Rect3 kc (B * M.num_heads) L M.head_dim)
    (hvc : Rect3 vc (B * M.num_heads) L M.head_dim) (hL : 0 < L)
    (hcache : cacheUpdate M B (getInputBuffer (some st)) st false
        (some (headSplit M.num_heads M.head_dim
          (linearSeq M.k_proj_weight M.k_proj_bias [x])))
        (some (headSplit M.num_heads M.head_dim
          (linearSeq M.v_proj_weight M.v_proj_bias [x]))) none 1
      = some (some kc, some vc, none, L, some st')) :
    decodeStep M Eexp dp st x =
      some (linearSeq M.out_proj_weight M.out_proj_bias (mergeHeads B M.num_heads
        (bmm3 (applyDropout dp (softmaxLast Eexp (injectScores
          (bmm3 (headSplit M.num_heads M.head_dim (smulT3 M.scaling
            (linearSeq M.q_proj_weight M.q_proj_bias [x])))
            (transpose12 kc)))))
          vc)), st') := by
  have hBH : 0 < B * M.num_heads := Nat.mul_pos hB hH
  have hembed0 : (x.headD []).length = M.num_heads * M.head_dim :=
    headD_length_of_rect hxB hxrow hB
  have hx1 : Rect3 [x] 1 B (M.num_heads * M.head_dim) := by
    refine ⟨rfl, ?_⟩
    intro p hp
    rw [List.mem_singleton] at hp
    subst hp
    exact ⟨hxB, hxrow⟩
  have hq1 : Rect3 (headSplit M.num_heads M.head_dim
      (smulT3 M.scaling (linearSeq M.q_proj_weight M.q_proj_bias [x])))
      (B * M.num_heads) 1 M.head_dim :=
    headSplit_rect (smulT3_rect _ (linearSeq_rect hx1 hWq hbq)) (by decide)
  have hsc : Rect3 (bmm3 (headSplit M.num_heads M.head_dim
      (smulT3 M.scaling (linearSeq M.q_proj_weight M.q_proj_bias [x])))
      (transpose12 kc)) (B * M.num_heads) 1 L := scores_rect hq1 hkc hD
  have hattn : Rect3 (bmm3 (applyDropout dp (softmaxLast Eexp (injectScores
      (bmm3 (headSplit M.num_heads M.head_dim (smulT3 M.scaling
        (linearSeq M.q_proj_weight M.q_proj_bias [x])))
        (transpose12 kc))))) vc) (B * M.num_heads) 1 M.head_dim :=
    bmm3_plain_rect (applyDropout_rect (softmaxLast_rect (injectScores_rect hsc)))
      hvc hL
  have hsize1kc : size1 kc = L :=
    size1_of_rect hkc.1 (fun r hr => (hkc.2 r hr).1) hBH
  have hsz : size1 ([x] : T3) = B := by simp [size1, hxB]
  have hbeqL : (size1 kc == L) = true := by
    rw [hsize1kc]
    exact beq_self_eq_true _
  have hbeq2 : (size3 (bmm3 (headSplit M.num_heads M.head_dim
      (smulT3 M.scaling (linearSeq M.q_proj_weight M.q_proj_bias [x])))
      (transpose12 kc)) == (B * M.num_heads, 1, L)) = true := by
    rw [size3_of_rect hsc hBH (by decide)]
    exact beq_self_eq_true _
  have hbeq3 : (size3 (bmm3 (applyDropout dp (softmaxLast Eexp (injectScores
      (bmm3 (headSplit M.num_heads M.head_dim (smulT3 M.scaling
        (linearSeq M.q_proj_weight M.q_proj_bias [x])))
        (transpose12 kc))))) vc)
      == (B * M.num_heads, 1, M.head_dim)) = true := by
    rw [size3_of_rect hattn hBH (by decide)]
    exact beq_self_eq_true _
  have hcd : checkDims M [x] none none = some 1 := by
    simp only [checkDims, assertB, List.headD_cons, hembed0, MHA.embed_dim,
      beq_self_eq_true, if_true]
    rfl
  have hfwd : forward M Eexp dp [x] none none none (some st) false false none
      false false =
      some ⟨FwdPayload.normal (linearSeq M.out_proj_weight M.out_proj_bias
        (mergeHeads B M.num_heads
          (bmm3 (applyDropout dp (softmaxLast Eexp (injectScores
            (bmm3 (headSplit M.num_heads M.head_dim (smulT3 M.scaling
              (linearSeq M.q_proj_weight M.q_proj_bias [x])))
              (transpose12 kc)))))
            vc))) none, some st'⟩ := by
    unfold forward
    rw [hcd]
    simp only [Option.some_bind, Option.map_some', Option.map_none',
      staticClearKV, projectQKV, hself, eq_self_iff_true, if_true,
      Bool.and_false, Bool.false_eq_true, if_false,
      applyBiasKV, hbk, Option.pure_def, checkKpmSizes, zeroAttnStage, hza,
      applySparseMask, attnOutputStage, Bool.or_false]
    simp only [Option.bind_eq_bind, Option.some_bind]
    simp only [List.length_cons, List.length_nil, Nat.zero_add, hsz,
      Option.map_some']
    rw [hcache]
    simp only [Option.some_bind]
    simp only [Option.map_some', Option.getD_some, assertB, Option.isSome_some,
      maskScores, hbeqL, hbeq2, hbeq3, if_true, eq_self_iff_true,
      Option.some_bind]
  unfold decodeStep
  rw [hfwd]

lemma softmaxRow_append_ninf (Eexp : ℚ → ℚ) (r1 : List SVal) (j : ℕ) :
    softmaxRow Eexp (r1 ++ List.replicate j SVal.ninf) =
      softmaxRow Eexp r1 ++ List.replicate j 0 := by
  simp [softmaxRow, List.map_append, List.map_replicate, expw,
    List.sum_replicate]

lemma causalMask_getD (N t : ℕ) (ht : t < N) :
    (causalMask N).getD t [] =
      (List.range N).map fun s => if s ≤ t then SVal.val 0 else SVal.ninf := by
  unfold causalMask
  rw [List.getD_eq_getElem _ _ (by simpa using ht), List.getElem_map,
    List.getElem_range]

lemma causal_mask_row (N t : ℕ) (ht : t < N) (r : T1) (hr : r.length = N) :
    List.zipWith (fun q m => SVal.addTo m q) r ((causalMask N).getD t []) =
      (r.take (t + 1)).map SVal.val ++
        List.replicate (N - (t + 1)) SVal.ninf := by
  rw [causalMask_getD N t ht]
  apply List.ext_getElem
  · simp [List.length_zipWith, hr]
    omega
  · intro s hs1 hs2
    rw [List.getElem_zipWith]
    rw [List.getElem_map, List.getElem_range]
    by_cases hst : s ≤ t
    · have hslt : s < (r.take (t + 1)).length := by
        simp [List.length_take, hr]
        omega
      rw [List.getElem_append_left (by simpa using hslt)]
      have : s < ((r.take (t + 1)).map SVal.val).length := by simpa using hslt
      rw [List.getElem_map, List.getElem_take]
      simp [SVal.addTo, hst]
    · have hslen : ((r.take (t + 1)).map SVal.val).length = t + 1 := by
        simp [List.length_take, hr]
        omega
      rw [List.getElem_append_right (by omega)]
      rw [List.getElem_replicate]
      simp [SVal.addTo, hst]

lemma dotQ_zero_ext (p c : T1) (j : ℕ) (hpc : p.length ≤ c.length) :
    dotQ (p ++ List.replicate j 0) c = dotQ p (c.take p.length) := by
  conv_lhs => rw [← List.take_append_drop p.length c]
  rw [dotQ_append (by rw [List.length_take]; omega), dotQ_replicate_zero,
    add_zero]

lemma transpose2_take {V : List (List α)} {d : α} {n : ℕ} (hn : 0 < n) :
    transpose2 (V.take n) d = (transpose2 V d).map fun c => c.take n := by
  cases V with
  | nil => simp [transpose2]
  | cons v vs =>
    cases n with
    | zero => omega
    | succ m =>
      unfold transpose2
      rw [List.map_map]
      simp only [List.take_succ_cons, List.headD_cons]
      refine List.map_congr_left fun j hj => ?_
      show (v :: vs.take m).map (fun r => r.getD j d) =
        ((v :: vs).map fun r => r.getD j d).take (m + 1)
      rw [← List.map_take, List.take_succ_cons]

lemma step_slice (Eexp : ℚ → ℚ) (qt : T1) (Kb Vb : T2) (N t : ℕ)
    (ht : t < N) (hK : Kb.length = N) (hV : Vb.length = N) :
    (transpose2 (Vb.take (t + 1)) 0).map
        (fun c => dotQ (softmaxRow Eexp
          (((Kb.take (t + 1)).map (dotQ qt)).map SVal.val)) c)
      = (transpose2 Vb 0).map
        (fun c => dotQ (softmaxRow Eexp
            (List.zipWith (fun q m => SVal.addTo m q) (Kb.map (dotQ qt))
              ((causalMask N).getD t []))) c) := by
  rw [causal_mask_row N t ht _ (by simp [hK])]
  rw [List.map_take, softmaxRow_append_ninf]
  rw [transpose2_take (by omega)]
  rw [List.map_map]
  refine List.map_congr_left fun c hc => ?_
  obtain ⟨jj, hjj, rfl⟩ := mem_transpose2 hc
  have hclen : (Vb.map fun r => r.getD jj 0).length = N := by simp [hV]
  have hp1len : (softmaxRow Eexp
      ((((Kb.map (dotQ qt)).take (t + 1))).map SVal.val)).length = t + 1 := by
    simp [softmaxRow, List.length_take, hK]
    omega
  show dotQ _ ((Vb.map fun r => r.getD jj 0).take (t + 1)) = _
  rw [dotQ_zero_ext _ _ _ (by rw [hp1len, hclen]; omega), hp1len]

lemma headSplit_singleton {H D Bn : ℕ} {y : T3} {t : ℕ}
    (hy : ∀ p ∈ y, (splitHeadsPos H D p).length = Bn)
    (ht : t < y.length) :
    headSplit H D [y.getD t []] =
      (headSplit H D y).map fun A => [A.getD t []] := by
  have hy0 : 0 < y.length := by omega
  have htD : y.getD t [] = y[t] := List.getD_eq_getElem _ _ ht
  have hh : (y.map (splitHeadsPos H D)).headD [] =
      splitHeadsPos H D (y.headD []) := by
    cases y with
    | nil => simp at hy0
    | cons a as => simp
  unfold headSplit
  apply List.ext_getElem
  · rw [transpose2_length, List.length_map, transpose2_length, hh]
    simp only [List.map_cons, List.map_nil, List.headD_cons]
    rw [htD, hy (y[t]) (List.getElem_mem ht),
      hy (y.headD []) (headD_mem hy0)]
  · intro j hj1 hj2
    rw [List.length_map] at hj2
    rw [getElem_transpose2 hj1, List.getElem_map, getElem_transpose2 hj2]
    simp only [List.map_cons, List.map_nil]
    have htm : t < ((y.map (splitHeadsPos H D)).map fun r =>
        r.getD j []).length := by
      simpa using ht
    rw [List.getD_eq_getElem _ _ htm, List.getElem_map, List.getElem_map, htD]

lemma catDim1_take_succ {kF : T3} {t : ℕ} (h : ∀ A ∈ kF, t < A.length) :
    catDim1 (kF.map fun A => A.take t) (kF.map fun A => [A.getD t []]) =
      kF.map fun A => A.take (t + 1) := by
  unfold catDim1
  rw [List.zipWith_map_left, List.zipWith_map_right, List.zipWith_same]
  refine List.map_congr_left fun A hA => ?_
  rw [List.getD_eq_getElem _ _ (h A hA), ← take_succ_getElem (h A hA)]

lemma mergeHeads_singleton {B H : ℕ} {y : T3} {t L : ℕ}
    (hy : ∀ A ∈ y, A.length = L) (ht : t < L) (hy0 : 0 < y.length) :
    mergeHeads B H (y.map fun A => [A.getD t []]) =
      [(mergeHeads B H y).getD t []] := by
  unfold mergeHeads
  have h1 : transpose2 (y.map fun A => [A.getD t []]) [] =
      [y.map fun A => A.getD t []] := by
    cases y with
    | nil => simp at hy0
    | cons a as =>
      unfold transpose2
      simp only [List.map_cons, List.headD_cons, List.length_cons,
        List.length_nil, List.range_succ, List.range_zero, List.map_map]
      rfl
  rw [h1]
  have htT : t < (transpose2 y []).length := by
    rw [transpose2_length]
    rw [headD_length_of_rect rfl hy hy0]
    exact ht
  have htT2 : t < ((transpose2 y []).map (mergeHeadsPos B H)).length := by
    simpa using htT
  rw [List.getD_eq_getElem _ _ htT2, List.getElem_map,
    getElem_transpose2 htT]
  rfl

lemma linearSeq_getD {W : T2} {b : T1} {z : T3} {t : ℕ} (ht : t < z.length) :
    (linearSeq W b z).getD t [] = linearPos W b (z.getD t []) := by
  have htm : t < (linearSeq W b z).length := by simpa [linearSeq] using ht
  rw [List.getD_eq_getElem _ _ htm, List.getD_eq_getElem _ _ ht]
  simp [linearSeq]

lemma key_aux (Eexp : ℚ → ℚ) (N t D : ℕ) (ht : t < N) (hD : 0 < D)
    (q : T3) : ∀ (k v : T3),
      q.length = k.length → k.length = v.length →
      (∀ A ∈ q, A.length = N) →
      (∀ A ∈ k, A.length = N ∧ ∀ r ∈ A, r.length = D) →
      (∀ A ∈ v, A.length = N ∧ ∀ r ∈ A, r.length = D) →
      bmm3 (softmaxLast Eexp (injectScores
          (bmm3 (q.map fun A => [A.getD t []])
            (transpose12 (k.map fun A => A.take (t + 1))))))
          (v.map fun A => A.take (t + 1))
        = (bmm3 (softmaxLast Eexp (applyAttnMask (bmm3 q (transpose12 k))
            (causalMask N))) v).map fun A => [A.getD t []] := by
  induction q with
  | nil =>
    intro k v h1 h2 hq hk hv
    simp [bmm3, injectScores, softmaxLast, applyAttnMask]
  | cons Aq q' ih =>
    intro k v h1 h2 hq hk hv
    cases k with
    | nil => simp at h1
    | cons Ak k' =>
      cases v with
      | nil => simp at h2
      | cons Av v' =>
        simp only [List.map_cons, transpose12, bmm3, List.zipWith_cons_cons,
          injectScores, softmaxLast, applyAttnMask]
        congr 1
        · rw [matMul_transpose (fun r hr => ((hk Ak (by simp)).2 r
              (List.take_subset _ _ hr))) hD]
          rw [matMul_transpose (fun r hr => (hk Ak (by simp)).2 r hr) hD]
          simp only [matMul, List.map_cons, List.map_nil]
          have hAq : Aq.length = N := hq Aq (by simp)
          have hAk : Ak.length = N := (hk Ak (by simp)).1
          have hAv : Av.length = N := (hv Av (by simp)).1
          have hb : t < (((List.zipWith
              (fun row mrow => List.zipWith (fun q m => SVal.addTo m q) row mrow)
              (Aq.map fun r => Ak.map fun br => dotQ r br)
              (causalMask N)).map (softmaxRow Eexp)).map
                fun r => (transpose2 Av 0).map fun c => dotQ r c).length := by
            simp [List.length_zipWith, hAq, causalMask]
            omega
          have hstat : (((List.zipWith
              (fun row mrow => List.zipWith (fun q m => SVal.addTo m q) row mrow)
              (Aq.map fun r => Ak.map fun br => dotQ r br)
              (causalMask N)).map (softmaxRow Eexp)).map
                fun r => (transpose2 Av 0).map fun c => dotQ r c).getD t []
              = (transpose2 Av 0).map fun c => dotQ (softmaxRow Eexp
                  (List.zipWith (fun q m => SVal.addTo m q)
                    (Ak.map fun br => dotQ (Aq.getD t []) br)
                    ((causalMask N).getD t []))) c := by
            rw [List.getD_eq_getElem _ _ hb]
            simp only [List.getElem_map, List.getElem_zipWith]
            rw [List.getD_eq_getElem _ _ (show t < Aq.length by omega),
              List.getD_eq_getElem _ _ (show t < (causalMask N).length by
                simpa [causalMask] using ht)]
          rw [hstat]
          exact congrArg (fun l => [l])
            (step_slice Eexp (Aq.getD t []) Ak Av N t ht hAk hAv)
        · exact ih k' v' (by simpa using h1) (by simpa using h2)
            (fun A hA => hq A (by simp [hA]))
            (fun A hA => hk A (by simp [hA]))
            (fun A hA => hv A (by simp [hA]))

lemma step_output_matches (M : MHA) (Eexp : ℚ → ℚ) (B N t : ℕ)
    (qF kF vF : T3)
    (hqF : Rect3 qF (B * M.num_heads) N M.head_dim)
    (hkF : Rect3 kF (B * M.num_heads) N M.head_dim)
    (hvF : Rect3 vF (B * M.num_heads) N M.head_dim)
    (ht : t < N) (hBH : 0 < B * M.num_heads) (hD : 0 < M.head_dim) :
    linearSeq M.out_proj_weight M.out_proj_bias (mergeHeads B M.num_heads
      (bmm3 (applyDropout id (softmaxLast Eexp (injectScores
        (bmm3 (qF.map fun A => [A.getD t []])
          (transpose12 (kF.map fun A => A.take (t + 1)))))))
        (vF.map fun A => A.take (t + 1))))
      = [(selfAttnCore M Eexp id B qF kF vF (some (causalMask N))).getD t []] := by
  have hN : 0 < N := by omega
  have hcm1 : (causalMask N).length = N := by simp [causalMask]
  have hcm2 : ∀ r ∈ causalMask N, r.length = N := by
    intro r hr
    simp only [causalMask, List.mem_map] at hr
    obtain ⟨s, _, rfl⟩ := hr
    simp
  have hattnF : Rect3 (bmm3 (softmaxLast Eexp
      (applyAttnMask (bmm3 qF (transpose12 kF)) (causalMask N))) vF)
      (B * M.num_heads) N M.head_dim :=
    bmm3_plain_rect (softmaxLast_rect
      (applyAttnMask_rect (scores_rect hqF hkF hD) hcm1 hcm2)) hvF hN
  have hkey := key_aux Eexp N t M.head_dim ht hD qF kF vF
    (by rw [hqF.1, hkF.1]) (by rw [hkF.1, hvF.1])
    (fun A hA => (hqF.2 A hA).1) (fun A hA => hkF.2 A hA)
    (fun A hA => hvF.2 A hA)
  rw [applyDropout_id, hkey]
  have hm := mergeHeads_singleton (B := B) (H := M.num_heads)
    (fun A hA => (hattnF.2 A hA).1) ht (by rw [hattnF.1]; omega)
  rw [hm]
  have hmlen : (mergeHeads B M.num_heads (bmm3 (softmaxLast Eexp
      (applyAttnMask (bmm3 qF (transpose12 kF)) (causalMask N))) vF)).length
      = N := by
    unfold mergeHeads
    rw [List.length_map, transpose2_length]
    exact headD_length_of_rect hattnF.1 (fun A hA => (hattnF.2 A hA).1) hBH
  show _ = [(selfAttnCore M Eexp id B qF kF vF (some (causalMask N))).getD t []]
  simp only [selfAttnCore, maskScores, applyDropout_id]
  rw [linearSeq_getD (by rw [hmlen]; omega)]
  rfl

lemma linearSeq_singleton (W : T2) (b : T1) (x : T2) :
    linearSeq W b [x] = [linearPos W b x] := rfl

lemma proj_singleton {W : T2} {b : T1} {H D Bn : ℕ} {xs : T3} {t : ℕ}
    (ht : t < xs.length)
    (hsp : ∀ p ∈ linearSeq W b xs, (splitHeadsPos H D p).length = Bn) :
    headSplit H D (linearSeq W b [xs.getD t []]) =
      (headSplit H D (linearSeq W b xs)).map fun A => [A.getD t []] := by
  have h1 : linearSeq W b [xs.getD t []] = [(linearSeq W b xs).getD t []] := by
    rw [linearSeq_singleton, linearSeq_getD ht]
  rw [h1, headSplit_singleton hsp (by simpa [linearSeq] using ht)]

lemma getD_smulT3 {c : ℚ} {y : T3} {t : ℕ} (ht : t < y.length) :
    (smulT3 c y).getD t [] = (y.getD t []).map (List.map fun q => c * q) := by
  have htm : t < (smulT3 c y).length := by simpa [smulT3] using ht
  rw [List.getD_eq_getElem _ _ htm, List.getD_eq_getElem _ _ ht]
  simp [smulT3]

lemma qproj_singleton {W : T2} {b : T1} {c : ℚ} {H D Bn : ℕ} {xs : T3} {t : ℕ}
    (ht : t < xs.length)
    (hsp : ∀ p ∈ smulT3 c (linearSeq W b xs),
      (splitHeadsPos H D p).length = Bn) :
    headSplit H D (smulT3 c (linearSeq W b [xs.getD t []])) =
      (headSplit H D (smulT3 c (linearSeq W b xs))).map
        fun A => [A.getD t []] := by
  have h1 : smulT3 c (linearSeq W b [xs.getD t []]) =
      [(smulT3 c (linearSeq W b xs)).getD t []] := by
    rw [linearSeq_singleton]
    rw [getD_smulT3 (by simpa [linearSeq] using ht), linearSeq_getD ht]
    rfl
  rw [h1, headSplit_singleton hsp (by simpa [smulT3, linearSeq] using ht)]

lemma map_take_one {y : T3} (h : ∀ A ∈ y, 0 < A.length) :
    (y.map fun A => [A.getD 0 []]) = y.map fun A => A.take 1 := by
  refine List.map_congr_left fun A hA => ?_
  cases A with
  | nil =>
    have := h _ hA
    simp at this
  | cons a as => rfl

lemma size1_map_take {y : T3} {n L : ℕ} (h0 : 0 < y.length)
    (hlen : ∀ A ∈ y, A.length = L) (hn : n ≤ L) :
    size1 (y.map fun A => A.take n) = n := by
  cases y with
  | nil => simp at h0
  | cons A ys =>
    have : A.length = L := hlen A (by simp)
    simp [size1, List.length_take]
    omega

/-- The cache contents after `t` incremental decoding steps: the head-split
key/value projections of the first `t` positions, stored through
`view(bsz, num_heads, -1, head_dim)`; no cache before the first step. -/
def cacheSt (B H : ℕ) (kF vF : T3) : ℕ → IncrementalState
  | 0 => none
  | t + 1 => some ⟨some (chunkN B H (kF.map fun A => A.take (t + 1))),
      some (chunkN B H (vF.map fun A => A.take (t + 1))), none⟩

lemma decodeLoop_suffix (M : MHA) (Eexp : ℚ → ℚ) (xs : T3) (B : ℕ)
    (hself : M.self_attention = true) (hbk : M.bias_k = none)
    (hza : M.add_zero_attn = false)
    (hx : Rect3 xs xs.length B (M.num_heads * M.head_dim))
    (hN : 0 < xs.length)
    (hB : 0 < B) (hH : 0 < M.num_heads) (hD : 0 < M.head_dim)
    (hWq : M.q_proj_weight.length = M.num_heads * M.head_dim)
    (hbq : M.q_proj_bias.length = M.num_heads * M.head_dim)
    (hWk : M.k_proj_weight.length = M.num_heads * M.head_dim)
    (hbk2 : M.k_proj_bias.length = M.num_heads * M.head_dim)
    (hWv : M.v_proj_weight.length = M.num_heads * M.head_dim)
    (hbv : M.v_proj_bias.length = M.num_heads * M.head_dim) :
    ∀ n t, t + n = xs.length →
      decodeLoop M Eexp id
          (cacheSt B M.num_heads
            (headSplit M.num_heads M.head_dim
              (linearSeq M.k_proj_weight M.k_proj_bias xs))
            (headSplit M.num_heads M.head_dim
              (linearSeq M.v_proj_weight M.v_proj_bias xs)) t)
          (xs.drop t)
        = some ((selfAttnCore M Eexp id B
            (headSplit M.num_heads M.head_dim (smulT3 M.scaling
              (linearSeq M.q_proj_weight M.q_proj_bias xs)))
            (headSplit M.num_heads M.head_dim
              (linearSeq M.k_proj_weight M.k_proj_bias xs))
            (headSplit M.num_heads M.head_dim
              (linearSeq M.v_proj_weight M.v_proj_bias xs))
            (some (causalMask xs.length))).drop t) := by
  have hBH : 0 < B * M.num_heads := Nat.mul_pos hB hH
  have hqFr : Rect3 (headSplit M.num_heads M.head_dim
      (smulT3 M.scaling (linearSeq M.q_proj_weight M.q_proj_bias xs)))
      (B * M.num_heads) xs.length M.head_dim :=
    headSplit_rect (smulT3_rect _ (linearSeq_rect hx hWq hbq)) hN
  have hkFr : Rect3 (headSplit M.num_heads M.head_dim
      (linearSeq M.k_proj_weight M.k_proj_bias xs))
      (B * M.num_heads) xs.length M.head_dim :=
    headSplit_rect (linearSeq_rect hx hWk hbk2) hN
  have hvFr : Rect3 (headSplit M.num_heads M.head_dim
      (linearSeq M.v_proj_weight M.v_proj_bias xs))
      (B * M.num_heads) xs.length M.head_dim :=
    headSplit_rect (linearSeq_rect hx hWv hbv) hN
  have hattnF : Rect3 (bmm3 (softmaxLast Eexp
      (applyAttnMask (bmm3 (headSplit M.num_heads M.head_dim (smulT3 M.scaling
          (linearSeq M.q_proj_weight M.q_proj_bias xs)))
        (transpose12 (headSplit M.num_heads M.head_dim
          (linearSeq M.k_proj_weight M.k_proj_bias xs))))
        (causalMask xs.length)))
      (headSplit M.num_heads M.head_dim
        (linearSeq M.v_proj_weight M.v_proj_bias xs)))
      (B * M.num_heads) xs.length M.head_dim := by
    refine bmm3_plain_rect (softmaxLast_rect (applyAttnMask_rect
      (scores_rect hqFr hkFr hD) (by simp [causalMask]) ?_)) hvFr hN
    intro r hr
    simp only [causalMask, List.mem_map] at hr
    obtain ⟨s, _, rfl⟩ := hr
    simp
  have hsoLen : (selfAttnCore M Eexp id B
      (headSplit M.num_heads M.head_dim (smulT3 M.scaling
        (linearSeq M.q_proj_weight M.q_proj_bias xs)))
      (headSplit M.num_heads M.head_dim
        (linearSeq M.k_proj_weight M.k_proj_bias xs))
      (headSplit M.num_heads M.head_dim
        (linearSeq M.v_proj_weight M.v_proj_bias xs))
      (some (causalMask xs.length))).length = xs.length := by
    simp only [selfAttnCore, maskScores, applyDropout_id]
    rw [show (linearSeq M.out_proj_weight M.out_proj_bias (mergeHeads B
        M.num_heads (bmm3 (softmaxLast Eexp (applyAttnMask (bmm3 (headSplit
        M.num_heads M.head_dim (smulT3 M.scaling (linearSeq M.q_proj_weight
        M.q_proj_bias xs))) (transpose12 (headSplit M.num_heads M.head_dim
        (linearSeq M.k_proj_weight M.k_proj_bias xs)))) (causalMask
        xs.length))) (headSplit M.num_heads M.head_dim (linearSeq
        M.v_proj_weight M.v_proj_bias xs))))).length = (mergeHeads B
        M.num_heads (bmm3 (softmaxLast Eexp (applyAttnMask (bmm3 (headSplit
        M.num_heads M.head_dim (smulT3 M.scaling (linearSeq M.q_proj_weight
        M.q_proj_bias xs))) (transpose12 (headSplit M.num_heads M.head_dim
        (linearSeq M.k_proj_weight M.k_proj_bias xs)))) (causalMask
        xs.length))) (headSplit M.num_heads M.head_dim (linearSeq
        M.v_proj_weight M.v_proj_bias xs)))).length from by simp [linearSeq]]
    unfold mergeHeads
    rw [List.length_map, transpose2_length]
    exact headD_length_of_rect hattnF.1 (fun A hA => (hattnF.2 A hA).1) hBH
  have hsp : ∀ p ∈ linearSeq M.k_proj_weight M.k_proj_bias xs,
      (splitHeadsPos M.num_heads M.head_dim p).length = B * M.num_heads := by
    intro p hp
    have := (linearSeq_rect hx hWk hbk2).2 p hp
    exact length_splitHeadsPos this.1 this.2
  have hspv : ∀ p ∈ linearSeq M.v_proj_weight M.v_proj_bias xs,
      (splitHeadsPos M.num_heads M.head_dim p).length = B * M.num_heads := by
    intro p hp
    have := (linearSeq_rect hx hWv hbv).2 p hp
    exact length_splitHeadsPos this.1 this.2
  have hspq : ∀ p ∈ smulT3 M.scaling (linearSeq M.q_proj_weight
      M.q_proj_bias xs),
      (splitHeadsPos M.num_heads M.head_dim p).length = B * M.num_heads := by
    intro p hp
    have := (smulT3_rect _ (linearSeq_rect hx hWq hbq)).2 p hp
    exact length_splitHeadsPos this.1 this.2
  intro n
  induction n with
  | zero =>
    intro t htN
    have ht : xs.length ≤ t := by omega
    rw [List.drop_eq_nil_of_le ht, List.drop_eq_nil_of_le (by omega)]
    rfl
  | succ n ihn =>
    intro t htN
    have htlt : t < xs.length := by omega
    have hxt : xs[t] = xs.getD t [] := (List.getD_eq_getElem _ _ htlt).symm
    have hxB : (xs.getD t []).length = B := by
      rw [List.getD_eq_getElem _ _ htlt]
      exact (hx.2 _ (List.getElem_mem htlt)).1
    have hxrow : ∀ r ∈ xs.getD t [], r.length = M.num_heads * M.head_dim := by
      rw [List.getD_eq_getElem _ _ htlt]
      exact (hx.2 _ (List.getElem_mem htlt)).2
    have hkc : Rect3 ((headSplit M.num_heads M.head_dim
        (linearSeq M.k_proj_weight M.k_proj_bias xs)).map
          fun A => A.take (t + 1)) (B * M.num_heads) (t + 1) M.head_dim :=
      map_take_rect hkFr (by omega)
    have hvc : Rect3 ((headSplit M.num_heads M.head_dim
        (linearSeq M.v_proj_weight M.v_proj_bias xs)).map
          fun A => A.take (t + 1)) (B * M.num_heads) (t + 1) M.head_dim :=
      map_take_rect hvFr (by omega)
    have hks : headSplit M.num_heads M.head_dim
        (linearSeq M.k_proj_weight M.k_proj_bias [xs.getD t []]) =
        (headSplit M.num_heads M.head_dim
          (linearSeq M.k_proj_weight M.k_proj_bias xs)).map
            fun A => [A.getD t []] := proj_singleton htlt hsp
    have hvs : headSplit M.num_heads M.head_dim
        (linearSeq M.v_proj_weight M.v_proj_bias [xs.getD t []]) =
        (headSplit M.num_heads M.head_dim
          (linearSeq M.v_proj_weight M.v_proj_bias xs)).map
            fun A => [A.getD t []] := proj_singleton htlt hspv
    have hcachestep : cacheUpdate M B (getInputBuffer (some (cacheSt B
        M.num_heads (headSplit M.num_heads M.head_dim
          (linearSeq M.k_proj_weight M.k_proj_bias xs))
        (headSplit M.num_heads M.head_dim
          (linearSeq M.v_proj_weight M.v_proj_bias xs)) t)))
        (cacheSt B M.num_heads (headSplit M.num_heads M.head_dim
          (linearSeq M.k_proj_weight M.k_proj_bias xs))
        (headSplit M.num_heads M.head_dim
          (linearSeq M.v_proj_weight M.v_proj_bias xs)) t) false
        (some (headSplit M.num_heads M.head_dim
          (linearSeq M.k_proj_weight M.k_proj_bias [xs.getD t []])))
        (some (headSplit M.num_heads M.head_dim
          (linearSeq M.v_proj_weight M.v_proj_bias [xs.getD t []]))) none 1
      = some (some ((headSplit M.num_heads M.head_dim
          (linearSeq M.k_proj_weight M.k_proj_bias xs)).map
            fun A => A.take (t + 1)),
        some ((headSplit M.num_heads M.head_dim
          (linearSeq M.v_proj_weight M.v_proj_bias xs)).map
            fun A => A.take (t + 1)), none, t + 1,
        some (cacheSt B M.num_heads (headSplit M.num_heads M.head_dim
          (linearSeq M.k_proj_weight M.k_proj_bias xs))
          (headSplit M.num_heads M.head_dim
            (linearSeq M.v_proj_weight M.v_proj_bias xs)) (t + 1))) := by
      rw [hks, hvs]
      cases t with
      | zero =>
        rw [show getInputBuffer (some (cacheSt B M.num_heads _ _ 0)) =
          emptyBuffer from rfl]
        rw [cacheUpdate_empty]
        rw [map_take_one (fun A hA => by rw [(hkFr.2 A hA).1]; omega),
          map_take_one (fun A hA => by rw [(hvFr.2 A hA).1]; omega)]
        rfl
      | succ m =>
        have hkh : ((headSplit M.num_heads M.head_dim
            (linearSeq M.k_proj_weight M.k_proj_bias xs)).map
              fun A => A.take (m + 1)).length = B * M.num_heads := by
          rw [List.length_map, hkFr.1]
        have hvh : ((headSplit M.num_heads M.head_dim
            (linearSeq M.v_proj_weight M.v_proj_bias xs)).map
              fun A => A.take (m + 1)).length = B * M.num_heads := by
          rw [List.length_map, hvFr.1]
        rw [show getInputBuffer (some (cacheSt B M.num_heads
            (headSplit M.num_heads M.head_dim
              (linearSeq M.k_proj_weight M.k_proj_bias xs))
            (headSplit M.num_heads M.head_dim
              (linearSeq M.v_proj_weight M.v_proj_bias xs)) (m + 1))) =
          ⟨some (chunkN B M.num_heads ((headSplit M.num_heads M.head_dim
            (linearSeq M.k_proj_weight M.k_proj_bias xs)).map
              fun A => A.take (m + 1))),
           some (chunkN B M.num_heads ((headSplit M.num_heads M.head_dim
            (linearSeq M.v_proj_weight M.v_proj_bias xs)).map
              fun A => A.take (m + 1))), none⟩ from rfl]
        rw [cacheUpdate_cons M B _ _ _ _ _ hkh hvh]
        rw [catDim1_take_succ (fun A hA => by rw [(hkFr.2 A hA).1]; omega),
          catDim1_take_succ (fun A hA => by rw [(hvFr.2 A hA).1]; omega)]
        rw [size1_map_take (by rw [hkFr.1]; exact hBH)
          (fun A hA => (hkFr.2 A hA).1) (by omega)]
        rfl
    have hstep := decodeStep_eval M Eexp id (cacheSt B M.num_heads
        (headSplit M.num_heads M.head_dim
          (linearSeq M.k_proj_weight M.k_proj_bias xs))
        (headSplit M.num_heads M.head_dim
          (linearSeq M.v_proj_weight M.v_proj_bias xs)) t)
      (xs.getD t [])
      ((headSplit M.num_heads M.head_dim
        (linearSeq M.k_proj_weight M.k_proj_bias xs)).map
          fun A => A.take (t + 1))
      ((headSplit M.num_heads M.head_dim
        (linearSeq M.v_proj_weight M.v_proj_bias xs)).map
          fun A => A.take (t + 1))
      (cacheSt B M.num_heads (headSplit M.num_heads M.head_dim
        (linearSeq M.k_proj_weight M.k_proj_bias xs))
        (headSplit M.num_heads M.head_dim
          (linearSeq M.v_proj_weight M.v_proj_bias xs)) (t + 1))
      B (t + 1) hself hbk hza hxB hxrow hB hH hD hWq hbq hkc hvc (by omega)
      hcachestep
    have hout : linearSeq M.out_proj_weight M.out_proj_bias
        (mergeHeads B M.num_heads (bmm3 (applyDropout id (softmaxLast Eexp
          (injectScores (bmm3 (headSplit M.num_heads M.head_dim (smulT3
            M.scaling (linearSeq M.q_proj_weight M.q_proj_bias
              [xs.getD t []])))
            (transpose12 ((headSplit M.num_heads M.head_dim
              (linearSeq M.k_proj_weight M.k_proj_bias xs)).map
                fun A => A.take (t + 1)))))))
          ((headSplit M.num_heads M.head_dim
            (linearSeq M.v_proj_weight M.v_proj_bias xs)).map
              fun A => A.take (t + 1))))
        = [(selfAttnCore M Eexp id B
            (headSplit M.num_heads M.head_dim (smulT3 M.scaling
              (linearSeq M.q_proj_weight M.q_proj_bias xs)))
            (headSplit M.num_heads M.head_dim
              (linearSeq M.k_proj_weight M.k_proj_bias xs))
            (headSplit M.num_heads M.head_dim
              (linearSeq M.v_proj_weight M.v_proj_bias xs))
            (some (causalMask xs.length))).getD t []] := by
      rw [qproj_singleton htlt hspq]
      exact step_output_matches M Eexp B xs.length t _ _ _ hqFr hkFr hvFr
        htlt hBH hD
    rw [hout] at hstep
    rw [List.drop_eq_getElem_cons htlt, hxt]
    simp only [decodeLoop]
    rw [hstep]
    simp only [Option.bind_eq_bind, Option.some_bind]
    rw [ihn (t + 1) (by omega)]
    simp only [Option.some_bind, Option.pure_def]
    rw [List.singleton_append]
    rw [List.getD_eq_getElem _ _ (by omega : t < (selfAttnCore M Eexp id B
      (headSplit M.num_heads M.head_dim (smulT3 M.scaling
        (linearSeq M.q_proj_weight M.q_proj_bias xs)))
      (headSplit M.num_heads M.head_dim
        (linearSeq M.k_proj_weight M.k_proj_bias xs))
      (headSplit M.num_heads M.head_dim
        (linearSeq M.v_proj_weight M.v_proj_bias xs))
      (some (causalMask xs.length))).length)]
    rw [← List.drop_eq_getElem_cons (by omega)]

/-- C1 (amended): incremental decoding — one forward call per position,
threading the incremental cache, concatenating the per-step outputs —
computes exactly the non-incremental forward call over the full sequence
*with the standard causal attention mask*; the per-step calls pass no
mask.  Self-attention, identical weights, zero dropout (`id`),
`add_bias_kv` and `add_zero_attn` off. -/
theorem incremental_decoding_equiv (M : MHA) (Eexp : ℚ → ℚ) (xs : T3)
    (B : ℕ)
    (hself : M.self_attention = true) (hbk : M.bias_k = none)
    (hza : M.add_zero_attn = false)
    (hx : Rect3 xs xs.length B (M.num_heads * M.head_dim))
    (hN : 0 < xs.length)
    (hB : 0 < B) (hH : 0 < M.num_heads) (hD : 0 < M.head_dim)
    (hWq : M.q_proj_weight.length = M.num_heads * M.head_dim)
    (hbq : M.q_proj_bias.length = M.num_heads * M.head_dim)
    (hWk : M.k_proj_weight.length = M.num_heads * M.head_dim)
    (hbk2 : M.k_proj_bias.length = M.num_heads * M.head_dim)
    (hWv : M.v_proj_weight.length = M.num_heads * M.head_dim)
    (hbv : M.v_proj_bias.length = M.num_heads * M.head_dim) :
    decodeLoop M Eexp id none xs =
      staticForward M Eexp id xs (some (causalMask xs.length)) := by
  rw [staticForward_eval M Eexp id xs (some (causalMask xs.length)) B hself
    hbk hza hx hN hB hH hD hWq hbq hWk hbk2 hWv hbv
    (by
      rintro mask h
      cases h
      constructor
      · simp [causalMask]
      · intro r hr
        simp only [causalMask, List.mem_map] at hr
        obtain ⟨s, _, rfl⟩ := hr
        simp)]
  have h := decodeLoop_suffix M Eexp xs B hself hbk hza hx hN hB hH hD hWq
    hbq hWk hbk2 hWv hbv xs.length 0 (by omega)
  simp only [cacheSt, List.drop_zero] at h
  rw [h]
  simp only [projSplit, qProjSplit]

/-- Counterexample to C1 as stated: without the causal mask on the full
call, the static forward attends bidirectionally while the incremental
steps only ever see the prefix, so the outputs differ.  One head, one
dimension, identity weights, constant exponential, zero dropout; input
positions `1, 2`: stepwise decoding yields `[[[1]], [[3/2]]]` but the
unmasked static call yields `[[[3/2]], [[3/2]]]`. -/
theorem incremental_decoding_counterexample :
    decodeLoop (⟨1, 1, true, false, [[1]], [0], [[1]], [0], [[1]], [0],
        [[1]], [0], 1, none, none, false⟩ : MHA)
      (fun _ => 1) id none [[[1]], [[2]]]
    ≠ staticForward (⟨1, 1, true, false, [[1]], [0], [[1]], [0], [[1]], [0],
        [[1]], [0], 1, none, none, false⟩ : MHA)
      (fun _ => 1) id [[[1]], [[2]]] none := by
  have hL : decodeLoop (⟨1, 1, true, false, [[1]], [0], [[1]], [0], [[1]],
      [0], [[1]], [0], 1, none, none, false⟩ : MHA)
      (fun _ => 1) id none [[[1]], [[2]]] = some [[[1]], [[3/2]]] := by
    have h := decodeLoop_suffix (⟨1, 1, true, false, [[1]], [0], [[1]], [0],
        [[1]], [0], [[1]], [0], 1, none, none, false⟩ : MHA)
      (fun _ => 1) [[[1]], [[2]]] 1 rfl rfl rfl (by unfold Rect3; decide) (by decide)
      (by decide) (by decide) (by decide) rfl rfl rfl rfl rfl rfl
      2 0 (by decide)
    simp only [cacheSt, List.drop_zero] at h
    rw [h]
    norm_num [selfAttnCore, maskScores, causalMask, headSplit, splitHeadsPos,
      chunkN, transpose2, linearSeq, linearPos, linearVec, smulT3, dotQ, bmm3,
      matMul, transpose12, catDim1, injectScores, applyAttnMask, SVal.addTo,
      softmaxLast, softmaxRow, expw, applyDropout, mergeHeads, mergeHeadsPos,
      List.range_succ, List.range_zero]
  have hR : staticForward (⟨1, 1, true, false, [[1]], [0], [[1]], [0], [[1]],
      [0], [[1]], [0], 1, none, none, false⟩ : MHA)
      (fun _ => 1) id [[[1]], [[2]]] none = some [[[3/2]], [[3/2]]] := by
    rw [staticForward_eval (⟨1, 1, true, false, [[1]], [0], [[1]], [0],
        [[1]], [0], [[1]], [0], 1, none, none, false⟩ : MHA)
      (fun _ => 1) id [[[1]], [[2]]] none 1 rfl rfl rfl
      (by unfold Rect3; decide)
      (by decide) (by decide) (by decide) (by decide) rfl rfl rfl rfl rfl rfl
      (fun mask h => nomatch h)]
    norm_num [selfAttnCore, projSplit, qProjSplit, maskScores, headSplit,
      splitHeadsPos, chunkN, transpose2, linearSeq, linearPos, linearVec,
      smulT3, dotQ, bmm3, matMul, transpose12, catDim1, injectScores,
      softmaxLast, softmaxRow, expw, applyDropout, mergeHeads, mergeHeadsPos,
      List.range_succ, List.range_zero]
  rw [hL, hR]
  intro h
  rw [Option.some_inj] at h
  have h0 := congrArg (fun l => ((l.headD []).headD []).headD 0) h
  norm_num at h0

/-- Witness for C1 (amended) at a concrete input: the equivalence theorem
applied to the one-head module with identity weights on the two-position
input. -/
theorem incremental_decoding_equiv_witness :
    decodeLoop (⟨1, 1, true, false, [[1]], [0], [[1]], [0], [[1]], [0],
        [[1]], [0], 1, none, none, false⟩ : MHA)
      (fun _ => 1) id none [[[1]], [[2]]]
    = staticForward (⟨1, 1, true, false, [[1]], [0], [[1]], [0], [[1]], [0],
        [[1]], [0], 1, none, none, false⟩ : MHA)
      (fun _ => 1) id [[[1]], [[2]]]
        (some (causalMask (List.length [[[1]], [[2]]]))) :=
  incremental_decoding_equiv (⟨1, 1, true, false, [[1]], [0], [[1]], [0],
      [[1]], [0], [[1]], [0], 1, none, none, false⟩ : MHA)
    (fun _ => 1) [[[1]], [[2]]] 1 rfl rfl rfl (by unfold Rect3; decide) (by decide)
    (by decide) (by decide) (by decide) rfl rfl rfl rfl rfl rfl

end MetaseqMHA
